import Mathlib

/-
Shallow embedding of the casino-simulator sources: deck.py, player.py,
seat.py, table.py, casino.py, blackjack.py and the revival block of
simulation.py.  Python's in-place mutation is modelled by explicit state
passing; python exceptions (pop from an empty list, missing dict key,
attribute access on None) are modelled by Option; the random number
generator is modelled by an explicit stream of naturals, and random.shuffle
by a permutation parameter.
-/

set_option maxRecDepth 8000

/-- A playing card: deck.py stores each card as a tuple (rank, suit, value). -/
structure Card where
  rank : String
  suit : String
  value : Nat
deriving DecidableEq

/-- deck.py Deck.CARD_LIST: the 13 ranks with their blackjack values
(ace is always 11, face cards are 10). -/
def CARD_LIST : List (String × Nat) :=
  [("A", 11), ("2", 2), ("3", 3), ("4", 4), ("5", 5), ("6", 6),
   ("7", 7), ("8", 8), ("9", 9), ("10", 10), ("J", 10), ("Q", 10), ("K", 10)]

/-- deck.py Deck.SUITS. -/
def SUITS : List String := ["Heart", "Spade", "Club", "Diamond"]

/-- The shoe: deck.py Deck holds one mutable list of cards. -/
structure Deck where
  deck : List Card
deriving DecidableEq

/-- One pass of the two inner loops of Deck.__init__: for each suit, for each
(rank, value) of CARD_LIST, append the card. -/
def deck_block : List Card :=
  (SUITS.map (fun s => CARD_LIST.map (fun cv => { rank := cv.1, suit := s, value := cv.2 }))).flatten

/-- Deck.__init__(num_decks): the suit/rank loops are repeated num_decks
times (the source default is 20, giving 1040 cards). -/
def Deck.init (num_decks : Nat) : Deck :=
  { deck := (List.replicate num_decks deck_block).flatten }

/-- Deck.shuffle_deck: random.shuffle is applied three times in place; the
three random shuffles compose to one permutation of the list, modelled by
the parameter perm. -/
def Deck.shuffle_deck (d : Deck) (perm : List Card → List Card) : Deck :=
  { deck := perm d.deck }

/-- Deck.draw_card: self.deck.pop() removes and returns the last element of
the list; popping an empty shoe fails (python raises IndexError there). -/
def Deck.draw_card (d : Deck) : Option (Card × Deck) :=
  match d.deck.reverse with
  | [] => none
  | c :: rest => some (c, { deck := rest.reverse })

/-- Drawing n times in sequence, keeping the cards drawn. -/
def Deck.draw_n (d : Deck) : Nat → Option (List Card × Deck)
  | 0 => some ([], d)
  | n + 1 =>
    match d.draw_card with
    | none => none
    | some cd =>
      match cd.2.draw_n n with
      | none => none
      | some r => some (cd.1 :: r.1, r.2)

/-- player.py Player dataclass. -/
structure Player where
  first_name : String
  last_name : String
  email : String
  player_id : Nat
  player_type : String
  money_left : Int
  rounds_left : Int
  history : List (String × Nat)
deriving DecidableEq

/-- seat.py Seat: an index and an optional player. -/
structure Seat where
  seat_index : Nat
  player : Option Player
deriving DecidableEq

/-- table.py Table. -/
structure Table where
  table_id : Nat
  num_seats : Nat
  seats_list : List Seat
  current_round_number : Nat
deriving DecidableEq

/-- Table.__init__: seats 0..num_seats-1, all empty, round counter 1. -/
def Table.init (table_id num_seats : Nat) : Table :=
  { table_id := table_id, num_seats := num_seats,
    seats_list := (List.range num_seats).map (fun i => { seat_index := i, player := none }),
    current_round_number := 1 }

/-- Tables built by Table.__init__ have seat i stored at position i; every
table the program creates satisfies this. -/
def Table.wf (t : Table) : Prop :=
  t.seats_list.map Seat.seat_index = List.range t.seats_list.length

/-- casino.py Casino. -/
structure Casino where
  casino_name : String
  tables : List Table
  finished_players : List Player
  casino_profit : Int
  total_hands_played : Nat
deriving DecidableEq

/-- The eviction test of Table.remove_finished_players:
money_left < 100 or rounds_left <= 0. -/
def evict_cond (p : Player) : Bool := p.money_left < 100 || p.rounds_left ≤ 0

/-- The seat loop of Table.remove_finished_players: vacate each occupied
seat whose player satisfies evict_cond, collecting those players in seat
order. -/
def evict_seats : List Seat → List Seat × List Player
  | [] => ([], [])
  | seat :: rest =>
    let r := evict_seats rest
    match seat.player with
    | some p =>
      if evict_cond p then ({ seat with player := none } :: r.1, p :: r.2)
      else (seat :: r.1, r.2)
    | none => (seat :: r.1, r.2)

/-- table.py Table.remove_finished_players: move each seated player with
money_left < 100 or rounds_left <= 0 to casino.finished_players (appended in
seat order); the player_pool argument is unused in the source as well. -/
def Table.remove_finished_players (t : Table) (player_pool : List Player) (c : Casino) :
    Table × Casino :=
  let r := evict_seats t.seats_list
  ({ t with seats_list := r.1 },
   { c with finished_players := c.finished_players ++ r.2 })

/-- The seat loop of Table.fill_empty_seats: each empty seat takes
player_pool.pop(0) while the pool is nonempty. -/
def fill_seats : List Seat → List Player → List Seat × List Player
  | [], pool => ([], pool)
  | seat :: rest, pool =>
    match seat.player with
    | some _ =>
      let r := fill_seats rest pool
      (seat :: r.1, r.2)
    | none =>
      match pool with
      | [] =>
        let r := fill_seats rest ([] : List Player)
        (seat :: r.1, r.2)
      | p :: ps =>
        let r := fill_seats rest ps
        ({ seat with player := some p } :: r.1, r.2)

/-- table.py Table.fill_empty_seats. -/
def Table.fill_empty_seats (t : Table) (pool : List Player) : Table × List Player :=
  let r := fill_seats t.seats_list pool
  ({ t with seats_list := r.1 }, r.2)

/-- random.randint(lo, hi) (inclusive bounds), fed by one value r of the
random stream. -/
def randint (lo hi : Nat) (r : Nat) : Nat := lo + r % (hi + 1 - lo)

/-- blackjack.py bet generation: one random.randint(10, 100) per occupied
seat, keyed by seat_index (the event's initial_bets dict, in seat order). -/
def gen_bets : List Seat → (Nat → Nat) → Nat → List (Nat × Nat)
  | [], _, _ => []
  | seat :: rest, rng, k =>
    match seat.player with
    | none => gen_bets rest rng k
    | some _ => (seat.seat_index, randint 10 100 (rng k)) :: gen_bets rest rng (k + 1)

/-- Dict lookup event["initial_bets"][seat_index]; a missing key fails
(python raises KeyError). -/
def lookup_bet : List (Nat × Nat) → Nat → Option Nat
  | [], _ => none
  | b :: rest, i => if b.1 = i then some b.2 else lookup_bet rest i

/-- blackjack.py hand totals: total = 0; for card in hand: total += card[2].
The raw sum of the stored card values, an ace always counting 11. -/
def hand_total (hand : List Card) : Nat := hand.foldl (fun t c => t + c.value) 0

/-- The dealing loop of play_round: two cards to each occupied seat, in seat
order, keyed by seat_index. -/
def deal_players : List Seat → Deck → Option (List (Nat × List Card) × Deck)
  | [], d => some ([], d)
  | seat :: rest, d =>
    match seat.player with
    | none => deal_players rest d
    | some _ =>
      match d.draw_card with
      | none => none
      | some c1 =>
        match c1.2.draw_card with
        | none => none
        | some c2 =>
          match deal_players rest c2.2 with
          | none => none
          | some r => some ((seat.seat_index, [c1.1, c2.1]) :: r.1, r.2)

/-- play_round deals two cards to the dealer after the players. -/
def deal_dealer (d : Deck) : Option (List Card × Deck) :=
  match d.draw_card with
  | none => none
  | some c1 =>
    match c1.2.draw_card with
    | none => none
    | some c2 => some ([c1.1, c2.1], c2.2)

/-- The player action loop of play_round, with an explicit fuel argument so
that the recursion is structural: while total < 18 draw a card, recompute
the total, and break out early if the total exceeds 21.  Each successful
draw shrinks the shoe by one card, so with fuel = size of the shoe the fuel
branch returning none is never reached (hit_loop_fuel_spare below). -/
def hit_loop_fuel : Nat → Deck → List Card → Option (Deck × List Card)
  | fuel, d, hand =>
    if hand_total hand < 18 then
      match d.draw_card with
      | none => none
      | some cd =>
        if hand_total (hand ++ [cd.1]) > 21 then some (cd.2, hand ++ [cd.1])
        else
          match fuel with
          | 0 => none
          | fuel' + 1 => hit_loop_fuel fuel' cd.2 (hand ++ [cd.1])
    else some (d, hand)

/-- The player action loop of play_round: while total < 18 draw a card,
recompute the total, break out early past 21. -/
def hit_loop (d : Deck) (hand : List Card) : Option (Deck × List Card) :=
  hit_loop_fuel d.deck.length d hand

/-- The dealer action loop of play_round, fueled like hit_loop_fuel:
while total < 18 draw a card. -/
def dealer_loop_fuel : Nat → Deck → List Card → Option (Deck × List Card)
  | fuel, d, hand =>
    if hand_total hand < 18 then
      match d.draw_card with
      | none => none
      | some cd =>
        match fuel with
        | 0 => none
        | fuel' + 1 => dealer_loop_fuel fuel' cd.2 (hand ++ [cd.1])
    else some (d, hand)

/-- The dealer action loop of play_round: while total < 18 draw a card. -/
def dealer_loop (d : Deck) (hand : List Card) : Option (Deck × List Card) :=
  dealer_loop_fuel d.deck.length d hand

/-- The loop over player_hands.items() that runs hit_loop for each hand and
increments casino.total_hands_played once per seat that plays. -/
def play_hands : List (Nat × List Card) → Deck → Nat → Option (List (Nat × List Card) × Deck × Nat)
  | [], d, hp => some ([], d, hp)
  | ih :: rest, d, hp =>
    match hit_loop d ih.2 with
    | none => none
    | some dh =>
      match play_hands rest dh.1 (hp + 1) with
      | none => none
      | some r => some ((ih.1, dh.2) :: r.1, r.2)

/-- The per-seat effect of one settlement branch of play_round. -/
structure SettleResult where
  player : Player
  profit : Int
  money_delta : Int
  outcome : String × Nat
deriving DecidableEq

/-- The settlement comparison of play_round (blackjack.py lines 149-233):
player bust first, then dealer bust, then higher total, lower total, push. -/
def settle_seat (p : Player) (bet : Nat) (player_total dealer_total : Nat) (profit : Int) :
    SettleResult :=
  if player_total > 21 then
    { player := { p with money_left := p.money_left - bet }, profit := profit + bet,
      money_delta := (bet : Int), outcome := ("loss", bet) }
  else if dealer_total > 21 then
    { player := { p with money_left := p.money_left + bet }, profit := profit - bet,
      money_delta := -(bet : Int), outcome := ("win", bet) }
  else if player_total > dealer_total then
    { player := { p with money_left := p.money_left + bet }, profit := profit - bet,
      money_delta := -(bet : Int), outcome := ("win", bet) }
  else if player_total < dealer_total then
    { player := { p with money_left := p.money_left - bet }, profit := profit + bet,
      money_delta := (bet : Int), outcome := ("loss", bet) }
  else
    { player := p, profit := profit, money_delta := 0, outcome := ("push", 0) }

/-- blackjack.py history update: append the outcome pair, then if the list
has more than 5 entries keep the last 5 (history[-5:]). -/
def push_history (p : Player) (outcome : String × Nat) : Player :=
  let h := p.history ++ [outcome]
  { p with history := if h.length > 5 then h.drop (h.length - 5) else h }

/-- One entry of the event's results list. -/
structure SeatResult where
  seat_index : Nat
  player_name : String
  money_delta : Int
deriving DecidableEq

/-- The settlement loop of play_round over player_hands.items(): look up the
seat by index, settle the seated player against the dealer total, record the
outcome on the player's history, and append the result entry. -/
def settle_all (bets : List (Nat × Nat)) (dealer_total : Nat) :
    List (Nat × List Card) → List Seat → Int → Option (List Seat × Int × List SeatResult)
  | [], seats, profit => some (seats, profit, [])
  | ih :: rest, seats, profit =>
    match seats[ih.1]? with
    | none => none
    | some seat =>
      match seat.player with
      | none => none
      | some p =>
        match lookup_bet bets ih.1 with
        | none => none
        | some bet =>
          let r := settle_seat p bet (hand_total ih.2) dealer_total profit
          let p2 := push_history r.player r.outcome
          let seats1 := seats.set ih.1 { seat with player := some p2 }
          match settle_all bets dealer_total rest seats1 r.profit with
          | none => none
          | some rr =>
            some (rr.1, rr.2.1,
              { seat_index := ih.1, player_name := p.first_name,
                money_delta := r.money_delta } :: rr.2.2)

/-- End-of-round loop of play_round: rounds_left -= 1 for every seated
player. -/
def decrement_rounds (seats : List Seat) : List Seat :=
  seats.map fun s =>
    match s.player with
    | none => s
    | some p => { s with player := some { p with rounds_left := p.rounds_left - 1 } }

/-- One entry of the event's seats_after list. -/
inductive SeatAfter where
  | occupied (seat : Nat) (player_name : String) (money : Int) (rounds : Int)
  | vacant (seat : Nat)
deriving DecidableEq

/-- The seats_after loop of play_round. -/
def build_seats_after (seats : List Seat) : List SeatAfter :=
  seats.map fun s =>
    match s.player with
    | some p => SeatAfter.occupied s.seat_index p.first_name p.money_left p.rounds_left
    | none => SeatAfter.vacant s.seat_index

/-- The event dictionary returned by play_round. -/
structure RoundEvent where
  table_id : Nat
  round_num : Nat
  initial_bets : List (Nat × Nat)
  results : List SeatResult
  seats_after : List SeatAfter
  profit_delta : Int
  hands : List (Nat × List Card)
  dealer_hand : List Card
deriving DecidableEq

/-- The state produced by one play_round call: the mutated casino and table,
the mutated waiting pool, and the returned event. -/
structure RoundResult where
  casino : Casino
  table : Table
  pool : List Player
  event : RoundEvent
deriving DecidableEq

/-- The pure tail of play_round, after all cards have been drawn and the
settlement loop has run: commit profit and the hands-played counter,
decrement rounds_left for seated players, evict and refill, advance the
round counter, and assemble the event (st carries the settled seats, the new
profit and the results list). -/
def round_tail (casino : Casino) (table : Table) (player_pool : List Player)
    (bets : List (Nat × Nat)) (hands : List (Nat × List Card)) (dealer_hand : List Card)
    (hands_played : Nat) (st : List Seat × Int × List SeatResult) : RoundResult :=
  let c1 : Casino := { casino with casino_profit := st.2.1, total_hands_played := hands_played }
  let t1 : Table := { table with seats_list := decrement_rounds st.1 }
  let rc := t1.remove_finished_players player_pool c1
  let rf := rc.1.fill_empty_seats player_pool
  let t2 : Table := { rf.1 with current_round_number := rf.1.current_round_number + 1 }
  { casino := rc.2
    table := t2
    pool := rf.2
    event :=
      { table_id := table.table_id
        round_num := table.current_round_number
        initial_bets := bets
        results := st.2.2
        seats_after := build_seats_after t2.seats_list
        profit_delta := rc.2.casino_profit - casino.casino_profit
        hands := hands
        dealer_hand := dealer_hand } }

/-- blackjack.py play_round: fresh 20-deck shoe, shuffle, bets, deal, player
hits, dealer hits, settlement, then the end-of-round tail.  Randomness is
passed in as the shuffle permutation and the randint stream. -/
def play_round (casino : Casino) (table : Table) (player_pool : List Player)
    (perm : List Card → List Card) (rng : Nat → Nat) : Option RoundResult :=
  let deck1 := (Deck.init 20).shuffle_deck perm
  let bets := gen_bets table.seats_list rng 0
  Option.bind (deal_players table.seats_list deck1) fun dp =>
  Option.bind (deal_dealer dp.2) fun dd =>
  Option.bind (play_hands dp.1 dd.2 casino.total_hands_played) fun ph =>
  Option.bind (dealer_loop ph.2.1 dd.1) fun dl =>
  Option.bind (settle_all bets (hand_total dl.2) ph.1 table.seats_list casino.casino_profit)
    fun st =>
  some (round_tail casino table player_pool bets ph.1 dl.2 ph.2.2 st)

/-- The revival loop of simulation.py: each finished player gets
money_left += randint(500, 1000) and rounds_left += randint(3, 10), in pool
order, consuming two random values per player. -/
def revive_players : List Player → (Nat → Nat) → Nat → List Player
  | [], _, _ => []
  | p :: rest, rng, k =>
    { p with
      money_left := p.money_left + (randint 500 1000 (rng (2 * k)) : Nat),
      rounds_left := p.rounds_left + (randint 3 10 (rng (2 * k + 1)) : Nat) }
      :: revive_players rest rng (k + 1)

/-- simulation.py lines 112-131: when sim_time % 1800 == 0, mutate every
finished player in place (so the finished pool then holds exactly the
revived players), then move each revived player out of the finished pool
(list.remove) and append it to the waiting pool. -/
def revival_step (sim_time : Nat) (finished pool : List Player) (rng : Nat → Nat) :
    List Player × List Player :=
  if sim_time % 1800 = 0 then
    let revived := revive_players finished rng 0
    revived.foldl (fun acc p => (acc.1.erase p, acc.2 ++ [p])) (revived, pool)
  else (finished, pool)

/-- simulation.py advances the simulated clock by 10 seconds per tick. -/
def sim_clock (ticks : Nat) : Nat := 10 * ticks

/-- Number of occupied seats of a seat list. -/
def occupied_count (seats : List Seat) : Nat := seats.countP (fun s => s.player.isSome)

/-- Number of empty seats of a seat list. -/
def empty_count (seats : List Seat) : Nat := seats.countP (fun s => s.player.isNone)

/-- The players sitting at previously empty positions, position by position:
for each seat that was empty in old, the occupant (if any) of the same
position in new. -/
def filled_players (old new : List Seat) : List (Option Player) :=
  (List.zip old new).filterMap (fun x =>
    match x.1.player with
    | some _ => none
    | none => some x.2.player)

/-- The money at one seat (0 when the seat is empty). -/
def seat_cash (s : Seat) : Int :=
  match s.player with
  | some p => p.money_left
  | none => 0

/-- Total money sitting at the seats. -/
def seat_money (seats : List Seat) : Int := (seats.map seat_cash).sum

/-- Total money of a list of players. -/
def pool_money (ps : List Player) : Int := (ps.map Player.money_left).sum

/-- The ids of the players seated at a table, in seat order. -/
def seat_ids (seats : List Seat) : List Nat :=
  seats.filterMap (fun s => s.player.map Player.player_id)

/-- The ids of a list of players. -/
def pool_ids (ps : List Player) : List Nat := ps.map Player.player_id

/-- A concrete player for instantiating theorems. -/
def demo_player : Player :=
  { first_name := "Ann", last_name := "Lee", email := "ann@lee.org", player_id := 1,
    player_type := "casual", money_left := 500, rounds_left := 5, history := [] }

/-- A one-seat table holding demo_player. -/
def demo_table : Table :=
  { table_id := 1, num_seats := 1,
    seats_list := [{ seat_index := 0, player := some demo_player }],
    current_round_number := 1 }

/-- A fresh casino. -/
def demo_casino : Casino :=
  { casino_name := "Lucky", tables := [], finished_players := [],
    casino_profit := 0, total_hands_played := 0 }

/-- A constant random stream: every randint takes its lower bound. -/
def demo_rng : Nat → Nat := fun _ => 0

/-- A player who has gone negative (the spec scenario: balance 50, bet 60
lost, balance now -10) but still has rounds to play. -/
def broke_player : Player :=
  { first_name := "Bo", last_name := "Ray", email := "bo@ray.org", player_id := 2,
    player_type := "regular", money_left := -10, rounds_left := 3, history := [("loss", 60)] }

/-- A waiting player used to refill seats. -/
def waiting_player : Player :=
  { first_name := "Cy", last_name := "Day", email := "cy@day.org", player_id := 3,
    player_type := "casual", money_left := 800, rounds_left := 9, history := [] }

/-- The result of the demo round: one seated player, identity shuffle, a
constant random stream.  The draws are K and Q of diamonds for the player
(total 20) and J and 10 of diamonds for the dealer (total 20): a push. -/
def demo_round : RoundResult :=
  (play_round demo_casino demo_table [] id demo_rng).get (by decide)

/-!  Basic lemmas about the shoe and hand totals. -/

theorem hand_total_go (hand : List Card) :
    ∀ a : Nat, hand.foldl (fun t c => t + c.value) a = a + (hand.map Card.value).sum := by
  induction hand with
  | nil => simp
  | cons c rest ih => intro a; simp [List.foldl_cons, ih]; ring

theorem hand_total_eq_sum (hand : List Card) :
    hand_total hand = (hand.map Card.value).sum := by
  simpa using hand_total_go hand 0

theorem hand_total_append (h : List Card) (c : Card) :
    hand_total (h ++ [c]) = hand_total h + c.value := by
  simp [hand_total_eq_sum]

theorem draw_card_none {d : Deck} (h : d.draw_card = none) : d.deck = [] := by
  unfold Deck.draw_card at h
  rcases hr : d.deck.reverse with _ | ⟨c, rest⟩
  · have := congrArg List.reverse hr
    simpa using this
  · rw [hr] at h
    cases h

theorem draw_card_some {d : Deck} {c : Card} {d' : Deck}
    (h : d.draw_card = some (c, d')) : d.deck = d'.deck ++ [c] := by
  unfold Deck.draw_card at h
  rcases hr : d.deck.reverse with _ | ⟨a, rest⟩ <;> rw [hr] at h
  · cases h
  · have h2 : a = c ∧ ({ deck := rest.reverse } : Deck) = d' := by
      constructor
      · exact congrArg Prod.fst (Option.some.inj h)
      · exact congrArg Prod.snd (Option.some.inj h)
    obtain ⟨rfl, rfl⟩ := h2
    have := congrArg List.reverse hr
    simpa using this

theorem draw_card_length {d : Deck} {c : Card} {d' : Deck}
    (h : d.draw_card = some (c, d')) : d.deck.length = d'.deck.length + 1 := by
  rw [draw_card_some h]; simp

/-!  Characterization of the two action loops (blackjack.py lines 116-139):
a hand only grows, cards are drawn only while the running total is strictly
below 18, the loop stops as soon as the total is 18 or more, and the drawn
cards come off the top of the shoe. -/

theorem some_pair_inj {A B : Type} {a c : A} {b d : B}
    (h : some (a, b) = some (c, d)) : a = c ∧ b = d := by
  have := Option.some.inj h
  exact ⟨congrArg Prod.fst this, congrArg Prod.snd this⟩

theorem hit_loop_fuel_sound :
    ∀ (fuel : Nat) (d : Deck) (hand : List Card) (d' : Deck) (h' : List Card),
      hit_loop_fuel fuel d hand = some (d', h') →
      ∃ ext, h' = hand ++ ext ∧ d.deck = d'.deck ++ ext.reverse ∧
        18 ≤ hand_total h' ∧
        (∀ k, hand.length ≤ k → k < h'.length → hand_total (h'.take k) < 18) := by
  intro fuel
  induction fuel with
  | zero =>
    intro d hand d' h' h
    unfold hit_loop_fuel at h
    by_cases ht : hand_total hand < 18
    · rw [if_pos ht] at h
      rcases hdc : d.draw_card with _ | ⟨c, d2⟩ <;> simp only [hdc] at h
      · cases h
      · by_cases hb : hand_total (hand ++ [c]) > 21
        · rw [if_pos hb] at h
          obtain ⟨rfl, rfl⟩ := some_pair_inj h
          refine ⟨[c], rfl, draw_card_some hdc, by omega, ?_⟩
          intro k hk1 hk2
          simp only [List.length_append, List.length_cons, List.length_nil] at hk2
          have hk : k = hand.length := by omega
          subst hk
          rw [List.take_left]
          exact ht
        · rw [if_neg hb] at h
          cases h
    · rw [if_neg ht] at h
      obtain ⟨rfl, rfl⟩ := some_pair_inj h
      exact ⟨[], by simp, by simp, by omega,
        fun k hk1 hk2 => absurd (lt_of_le_of_lt hk1 hk2) (lt_irrefl _)⟩
  | succ fuel ih =>
    intro d hand d' h' h
    unfold hit_loop_fuel at h
    by_cases ht : hand_total hand < 18
    · rw [if_pos ht] at h
      rcases hdc : d.draw_card with _ | ⟨c, d2⟩ <;> simp only [hdc] at h
      · cases h
      · by_cases hb : hand_total (hand ++ [c]) > 21
        · rw [if_pos hb] at h
          obtain ⟨rfl, rfl⟩ := some_pair_inj h
          refine ⟨[c], rfl, draw_card_some hdc, by omega, ?_⟩
          intro k hk1 hk2
          simp only [List.length_append, List.length_cons, List.length_nil] at hk2
          have hk : k = hand.length := by omega
          subst hk
          rw [List.take_left]
          exact ht
        · rw [if_neg hb] at h
          obtain ⟨ext, he1, he2, he3, he4⟩ := ih d2 (hand ++ [c]) d' h' h
          refine ⟨c :: ext, by simpa using he1, ?_, he3, ?_⟩
          · rw [draw_card_some hdc, he2]
            simp
          · intro k hk1 hk2
            rcases eq_or_lt_of_le hk1 with hk | hk
            · subst hk
              have hth : h'.take hand.length = hand := by
                rw [he1, List.append_assoc]
                exact List.take_left hand _
              rw [hth]
              exact ht
            · exact he4 k (by simpa [List.length_append] using hk) hk2
    · rw [if_neg ht] at h
      obtain ⟨rfl, rfl⟩ := some_pair_inj h
      exact ⟨[], by simp, by simp, by omega,
        fun k hk1 hk2 => absurd (lt_of_le_of_lt hk1 hk2) (lt_irrefl _)⟩

theorem dealer_loop_fuel_sound :
    ∀ (fuel : Nat) (d : Deck) (hand : List Card) (d' : Deck) (h' : List Card),
      dealer_loop_fuel fuel d hand = some (d', h') →
      ∃ ext, h' = hand ++ ext ∧ d.deck = d'.deck ++ ext.reverse ∧
        18 ≤ hand_total h' ∧
        (∀ k, hand.length ≤ k → k < h'.length → hand_total (h'.take k) < 18) := by
  intro fuel
  induction fuel with
  | zero =>
    intro d hand d' h' h
    unfold dealer_loop_fuel at h
    by_cases ht : hand_total hand < 18
    · rw [if_pos ht] at h
      rcases hdc : d.draw_card with _ | ⟨c, d2⟩ <;> simp only [hdc] at h
      · cases h
      · cases h
    · rw [if_neg ht] at h
      obtain ⟨rfl, rfl⟩ := some_pair_inj h
      exact ⟨[], by simp, by simp, by omega,
        fun k hk1 hk2 => absurd (lt_of_le_of_lt hk1 hk2) (lt_irrefl _)⟩
  | succ fuel ih =>
    intro d hand d' h' h
    unfold dealer_loop_fuel at h
    by_cases ht : hand_total hand < 18
    · rw [if_pos ht] at h
      rcases hdc : d.draw_card with _ | ⟨c, d2⟩ <;> simp only [hdc] at h
      · cases h
      · obtain ⟨ext, he1, he2, he3, he4⟩ := ih d2 (hand ++ [c]) d' h' h
        refine ⟨c :: ext, by simpa using he1, ?_, he3, ?_⟩
        · rw [draw_card_some hdc, he2]
          simp
        · intro k hk1 hk2
          rcases eq_or_lt_of_le hk1 with hk | hk
          · subst hk
            have hth : h'.take hand.length = hand := by
              rw [he1, List.append_assoc]
              exact List.take_left hand _
            rw [hth]
            exact ht
          · exact he4 k (by simpa [List.length_append] using hk) hk2
    · rw [if_neg ht] at h
      obtain ⟨rfl, rfl⟩ := some_pair_inj h
      exact ⟨[], by simp, by simp, by omega,
        fun k hk1 hk2 => absurd (lt_of_le_of_lt hk1 hk2) (lt_irrefl _)⟩

theorem draw_card_isSome {d : Deck} (h : d.deck ≠ []) :
    ∃ c d2, d.draw_card = some (c, d2) := by
  unfold Deck.draw_card
  rcases hr : d.deck.reverse with _ | ⟨c, rest⟩
  · exact absurd (by simpa using congrArg List.reverse hr) h
  · exact ⟨c, { deck := rest.reverse }, rfl⟩

theorem draw_card_mem {d : Deck} {c : Card} {d2 : Deck}
    (h : d.draw_card = some (c, d2)) : c ∈ d.deck := by
  rw [draw_card_some h]
  simp

theorem draw_card_subset {d : Deck} {c : Card} {d2 : Deck}
    (h : d.draw_card = some (c, d2)) : ∀ x ∈ d2.deck, x ∈ d.deck := by
  intro x hx
  rw [draw_card_some h]
  simp [hx]

/-- Cards are worth at least 2, so each hit adds at least 2 to the total and a
hand that starts below 18 can grow by at most (19 - total)/2 cards. -/
theorem hit_loop_fuel_bound :
    ∀ (fuel : Nat) (d : Deck) (hand : List Card) (d' : Deck) (h' : List Card),
      (∀ c ∈ d.deck, 2 ≤ c.value) →
      hit_loop_fuel fuel d hand = some (d', h') →
      hand_total hand < 18 →
      2 * h'.length + hand_total hand ≤ 2 * hand.length + 19 := by
  intro fuel
  induction fuel with
  | zero =>
    intro d hand d' h' hv h ht
    unfold hit_loop_fuel at h
    rw [if_pos ht] at h
    rcases hdc : d.draw_card with _ | ⟨c, d2⟩ <;> simp only [hdc] at h
    · cases h
    · by_cases hb : hand_total (hand ++ [c]) > 21
      · rw [if_pos hb] at h
        obtain ⟨rfl, rfl⟩ := some_pair_inj h
        simp only [List.length_append, List.length_cons, List.length_nil]
        omega
      · rw [if_neg hb] at h
        cases h
  | succ fuel ih =>
    intro d hand d' h' hv h ht
    unfold hit_loop_fuel at h
    rw [if_pos ht] at h
    rcases hdc : d.draw_card with _ | ⟨c, d2⟩ <;> simp only [hdc] at h
    · cases h
    · by_cases hb : hand_total (hand ++ [c]) > 21
      · rw [if_pos hb] at h
        obtain ⟨rfl, rfl⟩ := some_pair_inj h
        simp only [List.length_append, List.length_cons, List.length_nil]
        omega
      · rw [if_neg hb] at h
        have hc2 : 2 ≤ c.value := hv c (draw_card_mem hdc)
        have hv2 : ∀ x ∈ d2.deck, 2 ≤ x.value := fun x hx => hv x (draw_card_subset hdc x hx)
        by_cases ht1 : hand_total (hand ++ [c]) < 18
        · have := ih d2 (hand ++ [c]) d' h' hv2 h ht1
          rw [hand_total_append] at this ht1
          simp only [List.length_append, List.length_cons, List.length_nil] at this
          omega
        · unfold hit_loop_fuel at h
          rw [if_neg ht1] at h
          obtain ⟨rfl, rfl⟩ := some_pair_inj h
          simp only [List.length_append, List.length_cons, List.length_nil]
          omega

theorem dealer_loop_fuel_bound :
    ∀ (fuel : Nat) (d : Deck) (hand : List Card) (d' : Deck) (h' : List Card),
      (∀ c ∈ d.deck, 2 ≤ c.value) →
      dealer_loop_fuel fuel d hand = some (d', h') →
      hand_total hand < 18 →
      2 * h'.length + hand_total hand ≤ 2 * hand.length + 19 := by
  intro fuel
  induction fuel with
  | zero =>
    intro d hand d' h' hv h ht
    unfold dealer_loop_fuel at h
    rw [if_pos ht] at h
    rcases hdc : d.draw_card with _ | ⟨c, d2⟩ <;> simp only [hdc] at h
    · cases h
    · cases h
  | succ fuel ih =>
    intro d hand d' h' hv h ht
    unfold dealer_loop_fuel at h
    rw [if_pos ht] at h
    rcases hdc : d.draw_card with _ | ⟨c, d2⟩ <;> simp only [hdc] at h
    · cases h
    · have hc2 : 2 ≤ c.value := hv c (draw_card_mem hdc)
      have hv2 : ∀ x ∈ d2.deck, 2 ≤ x.value := fun x hx => hv x (draw_card_subset hdc x hx)
      by_cases ht1 : hand_total (hand ++ [c]) < 18
      · have := ih d2 (hand ++ [c]) d' h' hv2 h ht1
        rw [hand_total_append] at this ht1
        simp only [List.length_append, List.length_cons, List.length_nil] at this
        omega
      · unfold dealer_loop_fuel at h
        rw [if_neg ht1] at h
        obtain ⟨rfl, rfl⟩ := some_pair_inj h
        simp only [List.length_append, List.length_cons, List.length_nil]
        omega

/-- With every card worth at least 2 and enough cards in the shoe, the hit
loop cannot run out of cards. -/
theorem hit_loop_fuel_isSome :
    ∀ (fuel : Nat) (d : Deck) (hand : List Card),
      (∀ c ∈ d.deck, 2 ≤ c.value) →
      19 ≤ 2 * d.deck.length + hand_total hand →
      d.deck.length ≤ fuel →
      ∃ r, hit_loop_fuel fuel d hand = some r := by
  intro fuel
  induction fuel with
  | zero =>
    intro d hand hv hlen hfuel
    have ht : ¬ hand_total hand < 18 := by omega
    exact ⟨(d, hand), by unfold hit_loop_fuel; rw [if_neg ht]⟩
  | succ fuel ih =>
    intro d hand hv hlen hfuel
    by_cases ht : hand_total hand < 18
    · have hne : d.deck ≠ [] := by
        intro hnil
        rw [hnil] at hlen
        simp at hlen
        omega
      obtain ⟨c, d2, hdc⟩ := draw_card_isSome hne
      have hc2 : 2 ≤ c.value := hv c (draw_card_mem hdc)
      have hlen2 : d.deck.length = d2.deck.length + 1 := draw_card_length hdc
      by_cases hb : hand_total (hand ++ [c]) > 21
      · exact ⟨(d2, hand ++ [c]), by
          unfold hit_loop_fuel
          rw [if_pos ht]
          simp only [hdc]
          rw [if_pos hb]⟩
      · have hv2 : ∀ x ∈ d2.deck, 2 ≤ x.value := fun x hx => hv x (draw_card_subset hdc x hx)
        have hlen3 : 19 ≤ 2 * d2.deck.length + hand_total (hand ++ [c]) := by
          rw [hand_total_append]
          omega
        obtain ⟨r, hr⟩ := ih d2 (hand ++ [c]) hv2 hlen3 (by omega)
        exact ⟨r, by
          unfold hit_loop_fuel
          rw [if_pos ht]
          simp only [hdc]
          rw [if_neg hb]
          exact hr⟩
    · exact ⟨(d, hand), by unfold hit_loop_fuel; rw [if_neg ht]⟩

theorem dealer_loop_fuel_isSome :
    ∀ (fuel : Nat) (d : Deck) (hand : List Card),
      (∀ c ∈ d.deck, 2 ≤ c.value) →
      19 ≤ 2 * d.deck.length + hand_total hand →
      d.deck.length ≤ fuel →
      ∃ r, dealer_loop_fuel fuel d hand = some r := by
  intro fuel
  induction fuel with
  | zero =>
    intro d hand hv hlen hfuel
    have ht : ¬ hand_total hand < 18 := by omega
    exact ⟨(d, hand), by unfold dealer_loop_fuel; rw [if_neg ht]⟩
  | succ fuel ih =>
    intro d hand hv hlen hfuel
    by_cases ht : hand_total hand < 18
    · have hne : d.deck ≠ [] := by
        intro hnil
        rw [hnil] at hlen
        simp at hlen
        omega
      obtain ⟨c, d2, hdc⟩ := draw_card_isSome hne
      have hc2 : 2 ≤ c.value := hv c (draw_card_mem hdc)
      have hlen2 : d.deck.length = d2.deck.length + 1 := draw_card_length hdc
      have hv2 : ∀ x ∈ d2.deck, 2 ≤ x.value := fun x hx => hv x (draw_card_subset hdc x hx)
      have hlen3 : 19 ≤ 2 * d2.deck.length + hand_total (hand ++ [c]) := by
        rw [hand_total_append]
        omega
      obtain ⟨r, hr⟩ := ih d2 (hand ++ [c]) hv2 hlen3 (by omega)
      exact ⟨r, by
        unfold dealer_loop_fuel
        rw [if_pos ht]
        simp only [hdc]
        exact hr⟩
    · exact ⟨(d, hand), by unfold dealer_loop_fuel; rw [if_neg ht]⟩

/-!  Destructuring a successful play_round call into its stages. -/

theorem play_round_destruct {casino : Casino} {table : Table} {player_pool : List Player}
    {perm : List Card → List Card} {rng : Nat → Nat} {r : RoundResult}
    (h : play_round casino table player_pool perm rng = some r) :
    ∃ dp dd ph dl st,
      deal_players table.seats_list ((Deck.init 20).shuffle_deck perm) = some dp ∧
      deal_dealer dp.2 = some dd ∧
      play_hands dp.1 dd.2 casino.total_hands_played = some ph ∧
      dealer_loop ph.2.1 dd.1 = some dl ∧
      settle_all (gen_bets table.seats_list rng 0) (hand_total dl.2) ph.1 table.seats_list
        casino.casino_profit = some st ∧
      r = round_tail casino table player_pool (gen_bets table.seats_list rng 0)
            ph.1 dl.2 ph.2.2 st := by
  unfold play_round at h
  rw [Option.bind_eq_some] at h
  obtain ⟨dp, hdp, h⟩ := h
  rw [Option.bind_eq_some] at h
  obtain ⟨dd, hdd, h⟩ := h
  rw [Option.bind_eq_some] at h
  obtain ⟨ph, hph, h⟩ := h
  rw [Option.bind_eq_some] at h
  obtain ⟨dl, hdl, h⟩ := h
  rw [Option.bind_eq_some] at h
  obtain ⟨st, hst, h⟩ := h
  exact ⟨dp, dd, ph, dl, st, hdp, hdd, hph, hdl, hst, (Option.some.inj h).symm⟩

/-!  The dealing stage. -/

theorem occupied_count_cons_some {seat : Seat} {p : Player} (h : seat.player = some p)
    (rest : List Seat) : occupied_count (seat :: rest) = occupied_count rest + 1 := by
  simp [occupied_count, List.countP_cons, h]

theorem occupied_count_cons_none {seat : Seat} (h : seat.player = none)
    (rest : List Seat) : occupied_count (seat :: rest) = occupied_count rest := by
  simp [occupied_count, List.countP_cons, h]

theorem deal_players_sound :
    ∀ (seats : List Seat) (d : Deck) (r : List (Nat × List Card) × Deck),
      deal_players seats d = some r →
      r.1.map Prod.fst = (seats.filter (fun s => s.player.isSome)).map Seat.seat_index ∧
      r.2.deck.length + 2 * occupied_count seats = d.deck.length ∧
      ((∀ c ∈ d.deck, 2 ≤ c.value) →
        (∀ ih ∈ r.1, ih.2.length = 2 ∧ 4 ≤ hand_total ih.2) ∧
        (∀ c ∈ r.2.deck, 2 ≤ c.value)) := by
  intro seats
  induction seats with
  | nil =>
    intro d r h
    simp only [deal_players] at h
    obtain rfl := Option.some.inj h
    exact ⟨by simp, by simp [occupied_count], fun hv => ⟨by simp, hv⟩⟩
  | cons seat rest ih =>
    intro d r h
    unfold deal_players at h
    rcases hsp : seat.player with _ | p <;> simp only [hsp] at h
    · obtain ⟨h1, h2, h3⟩ := ih d r h
      refine ⟨by simpa [List.filter, hsp] using h1, ?_, h3⟩
      rw [occupied_count_cons_none hsp]
      exact h2
    · rcases hd1 : d.draw_card with _ | ⟨c1, d1⟩ <;> simp only [hd1] at h
      · cases h
      · rcases hd2 : d1.draw_card with _ | ⟨c2, d2⟩ <;> simp only [hd2] at h
        · cases h
        · rcases hrest : deal_players rest d2 with _ | r2 <;> simp only [hrest] at h
          · cases h
          · obtain ⟨rfl⟩ := Option.some.inj h
            obtain ⟨h1, h2, h3⟩ := ih d2 r2 hrest
            have hc1 : c1 ∈ d.deck := draw_card_mem hd1
            have hc2 : c2 ∈ d.deck := draw_card_subset hd1 _ (draw_card_mem hd2)
            have hlen : d.deck.length = d2.deck.length + 2 := by
              rw [draw_card_length hd1, draw_card_length hd2]
            refine ⟨by simpa [List.filter, hsp] using h1, ?_, ?_⟩
            · rw [occupied_count_cons_some hsp]
              show r2.2.deck.length + 2 * (occupied_count rest + 1) = d.deck.length
              omega
            · intro hv
              have hvd1 : ∀ x ∈ d1.deck, 2 ≤ x.value := fun x hx => hv x (draw_card_subset hd1 x hx)
              have hvd2 : ∀ x ∈ d2.deck, 2 ≤ x.value := fun x hx => hvd1 x (draw_card_subset hd2 x hx)
              obtain ⟨h3a, h3b⟩ := h3 hvd2
              refine ⟨?_, h3b⟩
              intro x hx
              rcases List.mem_cons.mp hx with hx1 | hx2
              · subst hx1
                constructor
                · simp
                · have hv1 : 2 ≤ c1.value := hv c1 hc1
                  have hv2 : 2 ≤ c2.value := hv c2 hc2
                  simp [hand_total_eq_sum]
                  omega
              · exact h3a x hx2

theorem deal_players_isSome :
    ∀ (seats : List Seat) (d : Deck),
      2 * occupied_count seats ≤ d.deck.length →
      ∃ r, deal_players seats d = some r := by
  intro seats
  induction seats with
  | nil => intro d hle; exact ⟨([], d), by simp [deal_players]⟩
  | cons seat rest ih =>
    intro d hle
    rcases hsp : seat.player with _ | p
    · obtain ⟨r, hr⟩ := ih d (by rw [occupied_count_cons_none hsp] at hle; exact hle)
      exact ⟨r, by unfold deal_players; simp only [hsp]; exact hr⟩
    · rw [occupied_count_cons_some hsp] at hle
      have hne : d.deck ≠ [] := by
        intro hnil; rw [hnil] at hle; simp at hle
      obtain ⟨c1, d1, hd1⟩ := draw_card_isSome hne
      have hl1 : d.deck.length = d1.deck.length + 1 := draw_card_length hd1
      have hne1 : d1.deck ≠ [] := by
        intro hnil
        rw [hnil] at hl1
        simp at hl1
        omega
      obtain ⟨c2, d2, hd2⟩ := draw_card_isSome hne1
      have hl2 : d1.deck.length = d2.deck.length + 1 := draw_card_length hd2
      obtain ⟨r2, hr2⟩ := ih d2 (by omega)
      exact ⟨((seat.seat_index, [c1, c2]) :: r2.1, r2.2), by
        unfold deal_players
        simp only [hsp, hd1, hd2, hr2]⟩

theorem deal_dealer_sound {d : Deck} {r : List Card × Deck}
    (h : deal_dealer d = some r) :
    r.2.deck.length + 2 = d.deck.length ∧
    ((∀ c ∈ d.deck, 2 ≤ c.value) →
      r.1.length = 2 ∧ 4 ≤ hand_total r.1 ∧ (∀ c ∈ r.2.deck, 2 ≤ c.value)) := by
  unfold deal_dealer at h
  rcases hd1 : d.draw_card with _ | ⟨c1, d1⟩ <;> simp only [hd1] at h
  · cases h
  · rcases hd2 : d1.draw_card with _ | ⟨c2, d2⟩ <;> simp only [hd2] at h
    · cases h
    · obtain ⟨rfl⟩ := Option.some.inj h
      have hlen : d.deck.length = d2.deck.length + 2 := by
        rw [draw_card_length hd1, draw_card_length hd2]
      refine ⟨by show d2.deck.length + 2 = d.deck.length; omega, fun hv => ?_⟩
      have hc1 : c1 ∈ d.deck := draw_card_mem hd1
      have hc2 : c2 ∈ d.deck := draw_card_subset hd1 _ (draw_card_mem hd2)
      have hvd2 : ∀ x ∈ d2.deck, 2 ≤ x.value := fun x hx =>
        hv x (draw_card_subset hd1 x (draw_card_subset hd2 x hx))
      refine ⟨by simp, ?_, hvd2⟩
      have hv1 : 2 ≤ c1.value := hv c1 hc1
      have hv2 : 2 ≤ c2.value := hv c2 hc2
      simp [hand_total_eq_sum]
      omega

theorem deal_dealer_isSome {d : Deck} (h : 2 ≤ d.deck.length) :
    ∃ r, deal_dealer d = some r := by
  have hne : d.deck ≠ [] := by intro hnil; rw [hnil] at h; simp at h
  obtain ⟨c1, d1, hd1⟩ := draw_card_isSome hne
  have hl1 : d.deck.length = d1.deck.length + 1 := draw_card_length hd1
  have hne1 : d1.deck ≠ [] := by
    intro hnil; rw [hnil] at hl1; simp at hl1; omega
  obtain ⟨c2, d2, hd2⟩ := draw_card_isSome hne1
  exact ⟨([c1, c2], d2), by unfold deal_dealer; simp only [hd1, hd2]⟩

/-!  The player-action stage. -/

theorem play_hands_sound :
    ∀ (hands : List (Nat × List Card)) (d : Deck) (hp : Nat)
      (r : List (Nat × List Card) × Deck × Nat),
      play_hands hands d hp = some r →
      r.2.2 = hp + hands.length ∧ r.1.map Prod.fst = hands.map Prod.fst := by
  intro hands
  induction hands with
  | nil =>
    intro d hp r h
    simp only [play_hands] at h
    obtain rfl := Option.some.inj h
    simp
  | cons ihand rest ih =>
    intro d hp r h
    unfold play_hands at h
    rcases hhl : hit_loop d ihand.2 with _ | dh <;> simp only [hhl] at h
    · cases h
    · rcases hrest : play_hands rest dh.1 (hp + 1) with _ | r2 <;> simp only [hrest] at h
      · cases h
      · obtain rfl := Option.some.inj h
        obtain ⟨h1, h2⟩ := ih dh.1 (hp + 1) r2 hrest
        refine ⟨?_, by simp [h2]⟩
        show r2.2.2 = hp + (rest.length + 1)
        omega

theorem hit_loop_wrapper_sound {d : Deck} {hand : List Card} {d' : Deck} {h' : List Card}
    (h : hit_loop d hand = some (d', h')) :
    ∃ ext, h' = hand ++ ext ∧ d.deck = d'.deck ++ ext.reverse ∧
      18 ≤ hand_total h' ∧
      (∀ k, hand.length ≤ k → k < h'.length → hand_total (h'.take k) < 18) :=
  hit_loop_fuel_sound d.deck.length d hand d' h' h

theorem dealer_loop_wrapper_sound {d : Deck} {hand : List Card} {d' : Deck} {h' : List Card}
    (h : dealer_loop d hand = some (d', h')) :
    ∃ ext, h' = hand ++ ext ∧ d.deck = d'.deck ++ ext.reverse ∧
      18 ≤ hand_total h' ∧
      (∀ k, hand.length ≤ k → k < h'.length → hand_total (h'.take k) < 18) :=
  dealer_loop_fuel_sound d.deck.length d hand d' h' h

/-- A hand dealt two cards totalling at least 4, played against a shoe whose
cards are all worth at least 2, ends with at most 9 cards. -/
theorem hit_loop_hand_bound {d : Deck} {hand : List Card} {d' : Deck} {h' : List Card}
    (hv : ∀ c ∈ d.deck, 2 ≤ c.value)
    (hlen : hand.length = 2) (ht4 : 4 ≤ hand_total hand)
    (h : hit_loop d hand = some (d', h')) :
    h'.length ≤ 9 ∧ d.deck.length ≤ d'.deck.length + 7 := by
  obtain ⟨ext, he1, he2, _, he4⟩ := hit_loop_wrapper_sound h
  have hconsumed : d.deck.length = d'.deck.length + ext.length := by
    rw [he2]; simp
  have hh : h'.length = hand.length + ext.length := by
    rw [he1]; simp
  by_cases ht : hand_total hand < 18
  · have := hit_loop_fuel_bound d.deck.length d hand d' h' hv h ht
    omega
  · have : h'.length ≤ hand.length := by
      by_contra hgt
      push_neg at hgt
      have := he4 hand.length (le_refl _) hgt
      rw [he1, List.take_left] at this
      omega
    omega

theorem play_hands_isSome :
    ∀ (hands : List (Nat × List Card)) (d : Deck) (hp : Nat),
      (∀ c ∈ d.deck, 2 ≤ c.value) →
      (∀ ihand ∈ hands, ihand.2.length = 2 ∧ 4 ≤ hand_total ihand.2) →
      7 * hands.length + 1 ≤ d.deck.length →
      ∃ r, play_hands hands d hp = some r ∧
        (∀ c ∈ r.2.1.deck, 2 ≤ c.value) ∧
        d.deck.length ≤ r.2.1.deck.length + 7 * hands.length ∧
        (∀ oh ∈ r.1, oh.2.length ≤ 9) := by
  intro hands
  induction hands with
  | nil =>
    intro d hp hv hh hle
    exact ⟨([], d, hp), by simp [play_hands], hv, by simp, by simp⟩
  | cons ihand rest ih =>
    intro d hp hv hh hle
    obtain ⟨hl2, ht4⟩ := hh ihand (by simp)
    have hdlen : 8 ≤ d.deck.length := by
      simp only [List.length_cons] at hle
      omega
    obtain ⟨dh, hdh⟩ := hit_loop_fuel_isSome d.deck.length d ihand.2 hv (by omega) (le_refl _)
    have hdh' : hit_loop d ihand.2 = some dh := hdh
    obtain ⟨hh9, hcons⟩ := hit_loop_hand_bound hv hl2 ht4 (by
      show hit_loop d ihand.2 = some (dh.1, dh.2)
      exact hdh')
    obtain ⟨ext, he1, he2, _, _⟩ := hit_loop_wrapper_sound
      (show hit_loop d ihand.2 = some (dh.1, dh.2) from hdh')
    have hv1 : ∀ c ∈ dh.1.deck, 2 ≤ c.value := by
      intro c hc
      apply hv
      rw [he2]
      simp [hc]
    have hrest_le : 7 * rest.length + 1 ≤ dh.1.deck.length := by
      simp only [List.length_cons] at hle
      omega
    obtain ⟨r2, hr2, hr2v, hr2len, hr2hands⟩ :=
      ih dh.1 (hp + 1) hv1 (fun x hx => hh x (by simp [hx])) hrest_le
    refine ⟨((ihand.1, dh.2) :: r2.1, r2.2), ?_, hr2v, ?_, ?_⟩
    · unfold play_hands
      simp only [hdh', hr2]
    · show d.deck.length ≤ r2.2.1.deck.length + 7 * (rest.length + 1)
      omega
    · intro oh hoh
      rcases List.mem_cons.mp hoh with h1 | h2
      · subst h1; exact hh9
      · exact hr2hands oh h2

/-!  The settlement stage. -/

theorem seat_money_cons (s : Seat) (rest : List Seat) :
    seat_money (s :: rest) = seat_cash s + seat_money rest := by
  simp [seat_money]

theorem seat_money_set :
    ∀ (seats : List Seat) (i : Nat) (seat ns : Seat),
      seats[i]? = some seat →
      seat_money (seats.set i ns) + seat_cash seat = seat_money seats + seat_cash ns := by
  intro seats
  induction seats with
  | nil => intro i seat ns h; simp at h
  | cons s rest ih =>
    intro i seat ns h
    cases i with
    | zero =>
      simp only [List.getElem?_cons_zero, Option.some.injEq] at h
      subst h
      simp only [List.set_cons_zero, seat_money_cons]
      ring
    | succ j =>
      simp only [List.getElem?_cons_succ] at h
      have := ih j seat ns h
      simp only [List.set_cons_succ, seat_money_cons]
      omega

theorem seat_ids_cons (s : Seat) (rest : List Seat) :
    seat_ids (s :: rest) =
      (match s.player with | some p => [p.player_id] | none => []) ++ seat_ids rest := by
  rcases hp : s.player with _ | p <;> simp [seat_ids, List.filterMap_cons, hp]

theorem seat_ids_set :
    ∀ (seats : List Seat) (i : Nat) (seat ns : Seat) (p p2 : Player),
      seats[i]? = some seat → seat.player = some p → ns.player = some p2 →
      p2.player_id = p.player_id →
      seat_ids (seats.set i ns) = seat_ids seats := by
  intro seats
  induction seats with
  | nil => intro i seat ns p p2 h; simp at h
  | cons s rest ih =>
    intro i seat ns p p2 h hp hp2 hid
    cases i with
    | zero =>
      simp only [List.getElem?_cons_zero, Option.some.injEq] at h
      subst h
      simp only [List.set_cons_zero, seat_ids_cons, hp, hp2, hid]
    | succ j =>
      simp only [List.getElem?_cons_succ] at h
      simp only [List.set_cons_succ, seat_ids_cons]
      rw [ih j seat ns p p2 h hp hp2 hid]

/-- Settlement moves exactly the bet between the player and the house. -/
theorem settle_seat_conserve (p : Player) (bet : Nat) (pt dt : Nat) (profit : Int) :
    (settle_seat p bet pt dt profit).player.money_left + (settle_seat p bet pt dt profit).profit
      = p.money_left + profit ∧
    (settle_seat p bet pt dt profit).player.player_id = p.player_id ∧
    (settle_seat p bet pt dt profit).player.first_name = p.first_name := by
  unfold settle_seat
  split_ifs <;> simp

theorem push_history_keeps (p : Player) (outcome : String × Nat) :
    (push_history p outcome).money_left = p.money_left ∧
    (push_history p outcome).player_id = p.player_id := by
  unfold push_history
  constructor <;> rfl

theorem settle_all_conserve :
    ∀ (hands : List (Nat × List Card)) (bets : List (Nat × Nat)) (dt : Nat)
      (seats : List Seat) (profit : Int) (r : List Seat × Int × List SeatResult),
      settle_all bets dt hands seats profit = some r →
      seat_money r.1 + r.2.1 = seat_money seats + profit := by
  intro hands
  induction hands with
  | nil =>
    intro bets dt seats profit r h
    simp only [settle_all] at h
    obtain rfl := Option.some.inj h
    rfl
  | cons ihand rest ih =>
    intro bets dt seats profit r h
    unfold settle_all at h
    rcases hseat : seats[ihand.1]? with _ | seat <;> simp only [hseat] at h
    · cases h
    · rcases hp : seat.player with _ | p <;> simp only [hp] at h
      · cases h
      · rcases hbet : lookup_bet bets ihand.1 with _ | bet <;> simp only [hbet] at h
        · cases h
        · rcases hrest : settle_all bets dt rest
            (seats.set ihand.1 { seat with player := some (push_history
              (settle_seat p bet (hand_total ihand.2) dt profit).player
              (settle_seat p bet (hand_total ihand.2) dt profit).outcome) })
            (settle_seat p bet (hand_total ihand.2) dt profit).profit
            with _ | r2 <;> simp only [hrest] at h
          · cases h
          · obtain rfl := Option.some.inj h
            have hrec := ih _ _ _ _ _ hrest
            have hset := seat_money_set seats ihand.1 seat
              { seat with player := some (push_history
                  (settle_seat p bet (hand_total ihand.2) dt profit).player
                  (settle_seat p bet (hand_total ihand.2) dt profit).outcome) } hseat
            have hcons := (settle_seat_conserve p bet (hand_total ihand.2) dt profit).1
            have hph := (push_history_keeps
              (settle_seat p bet (hand_total ihand.2) dt profit).player
              (settle_seat p bet (hand_total ihand.2) dt profit).outcome).1
            have hc1 : seat_cash seat = p.money_left := by simp [seat_cash, hp]
            have hc2 : seat_cash { seat with player := some (push_history
                (settle_seat p bet (hand_total ihand.2) dt profit).player
                (settle_seat p bet (hand_total ihand.2) dt profit).outcome) }
              = (settle_seat p bet (hand_total ihand.2) dt profit).player.money_left := by
              simp [seat_cash, hph]
            show seat_money r2.1 + r2.2.1 = seat_money seats + profit
            rw [hrec]
            omega

theorem settle_all_ids :
    ∀ (hands : List (Nat × List Card)) (bets : List (Nat × Nat)) (dt : Nat)
      (seats : List Seat) (profit : Int) (r : List Seat × Int × List SeatResult),
      settle_all bets dt hands seats profit = some r →
      seat_ids r.1 = seat_ids seats := by
  intro hands
  induction hands with
  | nil =>
    intro bets dt seats profit r h
    simp only [settle_all] at h
    obtain rfl := Option.some.inj h
    rfl
  | cons ihand rest ih =>
    intro bets dt seats profit r h
    unfold settle_all at h
    rcases hseat : seats[ihand.1]? with _ | seat <;> simp only [hseat] at h
    · cases h
    · rcases hp : seat.player with _ | p <;> simp only [hp] at h
      · cases h
      · rcases hbet : lookup_bet bets ihand.1 with _ | bet <;> simp only [hbet] at h
        · cases h
        · rcases hrest : settle_all bets dt rest
            (seats.set ihand.1 { seat with player := some (push_history
              (settle_seat p bet (hand_total ihand.2) dt profit).player
              (settle_seat p bet (hand_total ihand.2) dt profit).outcome) })
            (settle_seat p bet (hand_total ihand.2) dt profit).profit
            with _ | r2 <;> simp only [hrest] at h
          · cases h
          · obtain rfl := Option.some.inj h
            have hrec := ih _ _ _ _ _ hrest
            have hid1 := (settle_seat_conserve p bet (hand_total ihand.2) dt profit).2.1
            have hid2 := (push_history_keeps
              (settle_seat p bet (hand_total ihand.2) dt profit).player
              (settle_seat p bet (hand_total ihand.2) dt profit).outcome).2
            have hset := seat_ids_set seats ihand.1 seat
              { seat with player := some (push_history
                  (settle_seat p bet (hand_total ihand.2) dt profit).player
                  (settle_seat p bet (hand_total ihand.2) dt profit).outcome) }
              p (push_history
                  (settle_seat p bet (hand_total ihand.2) dt profit).player
                  (settle_seat p bet (hand_total ihand.2) dt profit).outcome)
              hseat hp rfl (by rw [hid2, hid1])
            show seat_ids r2.1 = seat_ids seats
            rw [hrec, hset]

theorem settle_all_isSome :
    ∀ (hands : List (Nat × List Card)) (bets : List (Nat × Nat)) (dt : Nat)
      (seats : List Seat) (profit : Int),
      (∀ ihand ∈ hands,
        (∃ seat p, seats[ihand.1]? = some seat ∧ seat.player = some p) ∧
        ∃ b, lookup_bet bets ihand.1 = some b) →
      ∃ r, settle_all bets dt hands seats profit = some r := by
  intro hands
  induction hands with
  | nil =>
    intro bets dt seats profit hocc
    exact ⟨(seats, profit, []), by simp [settle_all]⟩
  | cons ihand rest ih =>
    intro bets dt seats profit hocc
    obtain ⟨⟨seat, p, hseat, hp⟩, b, hb⟩ := hocc ihand (by simp)
    have hilt : ihand.1 < seats.length := by
      by_contra hge
      push_neg at hge
      rw [List.getElem?_eq_none hge] at hseat
      cases hseat
    have hocc2 : ∀ x ∈ rest,
        (∃ seat2 p2, (seats.set ihand.1 { seat with player := some (push_history
            (settle_seat p b (hand_total ihand.2) dt profit).player
            (settle_seat p b (hand_total ihand.2) dt profit).outcome) })[x.1]? = some seat2 ∧
          seat2.player = some p2) ∧
        ∃ b2, lookup_bet bets x.1 = some b2 := by
      intro x hx
      obtain ⟨⟨s2, p2, hs2, hp2⟩, hb2⟩ := hocc x (by simp [hx])
      refine ⟨?_, hb2⟩
      by_cases hij : ihand.1 = x.1
      · refine ⟨{ seat with player := some (push_history
            (settle_seat p b (hand_total ihand.2) dt profit).player
            (settle_seat p b (hand_total ihand.2) dt profit).outcome) },
          push_history (settle_seat p b (hand_total ihand.2) dt profit).player
            (settle_seat p b (hand_total ihand.2) dt profit).outcome, ?_, rfl⟩
        rw [← hij, List.getElem?_set_self hilt]
      · exact ⟨s2, p2, by rw [List.getElem?_set_ne hij]; exact hs2, hp2⟩
    obtain ⟨r2, hr2⟩ := ih bets dt
      (seats.set ihand.1 { seat with player := some (push_history
        (settle_seat p b (hand_total ihand.2) dt profit).player
        (settle_seat p b (hand_total ihand.2) dt profit).outcome) })
      (settle_seat p b (hand_total ihand.2) dt profit).profit hocc2
    refine ⟨(r2.1, r2.2.1,
      { seat_index := ihand.1, player_name := p.first_name,
        money_delta := (settle_seat p b (hand_total ihand.2) dt profit).money_delta } :: r2.2.2), ?_⟩
    unfold settle_all
    simp only [hseat, hp, hb, hr2]

/-!  The turnover stage: eviction, refill, rounds decrement. -/

theorem pool_money_cons (p : Player) (ps : List Player) :
    pool_money (p :: ps) = p.money_left + pool_money ps := by
  simp [pool_money]

theorem pool_money_append (a b : List Player) :
    pool_money (a ++ b) = pool_money a + pool_money b := by
  simp [pool_money]

theorem seat_cash_none {s : Seat} (h : s.player = none) : seat_cash s = 0 := by
  simp [seat_cash, h]

theorem seat_cash_some {s : Seat} {p : Player} (h : s.player = some p) :
    seat_cash s = p.money_left := by
  simp [seat_cash, h]

theorem evict_seats_cons (s : Seat) (rest : List Seat) :
    evict_seats (s :: rest) =
      match s.player with
      | some p =>
        if evict_cond p then
          ({ s with player := none } :: (evict_seats rest).1, p :: (evict_seats rest).2)
        else (s :: (evict_seats rest).1, (evict_seats rest).2)
      | none => (s :: (evict_seats rest).1, (evict_seats rest).2) := rfl

theorem fill_seats_cons (s : Seat) (rest : List Seat) (pool : List Player) :
    fill_seats (s :: rest) pool =
      match s.player with
      | some _ => (s :: (fill_seats rest pool).1, (fill_seats rest pool).2)
      | none =>
        match pool with
        | [] => (s :: (fill_seats rest []).1, (fill_seats rest []).2)
        | p :: ps =>
          ({ s with player := some p } :: (fill_seats rest ps).1, (fill_seats rest ps).2) := rfl

theorem evict_seats_eq :
    ∀ (seats : List Seat),
      (evict_seats seats).1 = seats.map (fun s =>
        match s.player with
        | some p => if evict_cond p then { s with player := none } else s
        | none => s) ∧
      (evict_seats seats).2 = (seats.filterMap Seat.player).filter evict_cond := by
  intro seats
  induction seats with
  | nil => exact ⟨rfl, rfl⟩
  | cons s rest ih =>
    obtain ⟨ih1, ih2⟩ := ih
    rw [evict_seats_cons]
    rcases hp : s.player with _ | p
    · simp [hp, ih1, ih2]
    · by_cases hc : evict_cond p = true
      · simp [hp, hc, List.filter_cons, ih1, ih2]
      · simp only [Bool.not_eq_true] at hc
        simp [hp, hc, List.filter_cons, ih1, ih2]

theorem evict_money :
    ∀ (seats : List Seat),
      seat_money (evict_seats seats).1 + pool_money (evict_seats seats).2 = seat_money seats := by
  intro seats
  induction seats with
  | nil => rfl
  | cons s rest ih =>
    rw [evict_seats_cons]
    rcases hp : s.player with _ | p
    · simp only [hp, seat_money_cons]
      omega
    · by_cases hc : evict_cond p = true
      · simp only [hp, hc, if_true, seat_money_cons, pool_money_cons]
        rw [seat_cash_none (show ({ s with player := none } : Seat).player = none from rfl),
          seat_cash_some hp]
        omega
      · simp only [Bool.not_eq_true] at hc
        simp only [hp, hc, Bool.false_eq_true, if_false, seat_money_cons]
        omega

theorem evict_ids :
    ∀ (seats : List Seat),
      (seat_ids (evict_seats seats).1 ++ pool_ids (evict_seats seats).2).Perm
        (seat_ids seats) := by
  intro seats
  induction seats with
  | nil => simp [evict_seats, seat_ids, pool_ids]
  | cons s rest ih =>
    rw [evict_seats_cons]
    rcases hp : s.player with _ | p
    · simp only [hp, seat_ids_cons, List.nil_append]
      exact ih
    · by_cases hc : evict_cond p = true
      · simp only [hp, hc, if_true, seat_ids_cons, List.nil_append, pool_ids, List.map_cons]
        show ((seat_ids (evict_seats rest).1) ++
            (p.player_id :: (evict_seats rest).2.map Player.player_id)).Perm
          (p.player_id :: seat_ids rest)
        refine List.Perm.trans List.perm_middle ?_
        exact List.Perm.cons p.player_id ih
      · simp only [Bool.not_eq_true] at hc
        simp only [hp, hc, Bool.false_eq_true, if_false, seat_ids_cons, List.cons_append]
        exact List.Perm.cons p.player_id ih

theorem fill_seats_pool :
    ∀ (seats : List Seat) (pool : List Player),
      (fill_seats seats pool).2 = pool.drop (min (empty_count seats) pool.length) := by
  intro seats
  induction seats with
  | nil => intro pool; simp [fill_seats, empty_count]
  | cons s rest ih =>
    intro pool
    rw [fill_seats_cons]
    rcases hp : s.player with _ | p
    · have he : empty_count (s :: rest) = empty_count rest + 1 := by
        simp [empty_count, List.countP_cons, hp]
      rcases pool with _ | ⟨q, qs⟩
      · simp only [hp, ih, he]
        simp
      · simp only [hp, ih, he]
        have hmin : min (empty_count rest + 1) ((q :: qs).length) =
            min (empty_count rest) qs.length + 1 := by
          simp only [List.length_cons]
          omega
        rw [hmin]
        rfl
    · have he : empty_count (s :: rest) = empty_count rest := by
        simp [empty_count, List.countP_cons, hp]
      simp only [hp, ih, he]

theorem fill_seats_keep :
    ∀ (seats : List Seat) (pool : List Player),
      List.Forall₂ (fun s s2 => s2.seat_index = s.seat_index ∧ ∀ p, s.player = some p → s2 = s)
        seats (fill_seats seats pool).1 := by
  intro seats
  induction seats with
  | nil => intro pool; simp [fill_seats]
  | cons s rest ih =>
    intro pool
    rw [fill_seats_cons]
    rcases hp : s.player with _ | p
    · rcases pool with _ | ⟨q, qs⟩
      · simp only [hp]
        exact List.Forall₂.cons ⟨rfl, fun p hp2 => by simp [hp] at hp2⟩ (ih [])
      · simp only [hp]
        exact List.Forall₂.cons ⟨rfl, fun p hp2 => by simp [hp] at hp2⟩ (ih qs)
    · simp only [hp]
      exact List.Forall₂.cons ⟨rfl, fun _ _ => rfl⟩ (ih pool)

theorem fill_seats_filled :
    ∀ (seats : List Seat) (pool : List Player),
      filled_players seats (fill_seats seats pool).1 =
        (pool.take (min (empty_count seats) pool.length)).map some ++
          List.replicate (empty_count seats - min (empty_count seats) pool.length) none := by
  intro seats
  induction seats with
  | nil => intro pool; simp [fill_seats, filled_players, empty_count]
  | cons s rest ih =>
    intro pool
    rw [fill_seats_cons]
    rcases hp : s.player with _ | p
    · have he : empty_count (s :: rest) = empty_count rest + 1 := by
        simp [empty_count, List.countP_cons, hp]
      rcases pool with _ | ⟨q, qs⟩
      · simp only [hp, he]
        have hstep : filled_players (s :: rest) (s :: (fill_seats rest []).1) =
            s.player :: filled_players rest (fill_seats rest []).1 := by
          simp [filled_players, List.zip_cons_cons, List.filterMap_cons, hp]
        rw [hstep, ih, hp]
        simp [List.replicate_succ]
      · simp only [hp, he]
        have hstep : filled_players (s :: rest)
            ({ s with player := some q } :: (fill_seats rest qs).1) =
            some q :: filled_players rest (fill_seats rest qs).1 := by
          simp [filled_players, List.zip_cons_cons, List.filterMap_cons, hp]
        rw [hstep, ih]
        have hmin : min (empty_count rest + 1) ((q :: qs).length) =
            min (empty_count rest) qs.length + 1 := by
          simp only [List.length_cons]
          omega
        rw [hmin]
        simp only [List.take_succ_cons, List.map_cons, List.cons_append, List.length_cons]
        have harith : empty_count rest + 1 - (min (empty_count rest) qs.length + 1) =
            empty_count rest - min (empty_count rest) qs.length := by
          omega
        rw [harith]
    · have he : empty_count (s :: rest) = empty_count rest := by
        simp [empty_count, List.countP_cons, hp]
      simp only [hp, he]
      have hstep : filled_players (s :: rest) (s :: (fill_seats rest pool).1) =
          filled_players rest (fill_seats rest pool).1 := by
        simp [filled_players, List.zip_cons_cons, List.filterMap_cons, hp]
      rw [hstep, ih]

theorem fill_money :
    ∀ (seats : List Seat) (pool : List Player),
      seat_money (fill_seats seats pool).1 + pool_money (fill_seats seats pool).2 =
        seat_money seats + pool_money pool := by
  intro seats
  induction seats with
  | nil => intro pool; simp [fill_seats, seat_money]
  | cons s rest ih =>
    intro pool
    rw [fill_seats_cons]
    rcases hp : s.player with _ | p
    · rcases pool with _ | ⟨q, qs⟩
      · simp only [hp]
        rw [seat_money_cons, seat_money_cons]
        have := ih ([] : List Player)
        simp only [pool_money, List.map_nil, List.sum_nil] at this ⊢
        omega
      · simp only [hp]
        rw [seat_money_cons, seat_money_cons, pool_money_cons,
          seat_cash_some (show ({ s with player := some q } : Seat).player = some q from rfl),
          seat_cash_none hp]
        have := ih qs
        omega
    · simp only [hp]
      rw [seat_money_cons, seat_money_cons]
      have := ih pool
      omega

theorem fill_ids :
    ∀ (seats : List Seat) (pool : List Player),
      (seat_ids (fill_seats seats pool).1 ++ pool_ids (fill_seats seats pool).2).Perm
        (seat_ids seats ++ pool_ids pool) := by
  intro seats
  induction seats with
  | nil => intro pool; simp [fill_seats, seat_ids]
  | cons s rest ih =>
    intro pool
    rw [fill_seats_cons]
    rcases hp : s.player with _ | p
    · rcases pool with _ | ⟨q, qs⟩
      · simp only [hp]
        rw [seat_ids_cons, hp, seat_ids_cons, hp]
        simpa using ih []
      · simp only [hp]
        have h1 : seat_ids ({ s with player := some q } :: (fill_seats rest qs).1) =
            q.player_id :: seat_ids (fill_seats rest qs).1 := by
          rw [seat_ids_cons]
          rfl
        have h2 : pool_ids (q :: qs) = q.player_id :: pool_ids qs := by simp [pool_ids]
        have h3 : seat_ids (s :: rest) = seat_ids rest := by
          rw [seat_ids_cons, hp]
          rfl
        rw [h1, h2, h3]
        refine List.Perm.trans (List.Perm.cons q.player_id (ih qs)) ?_
        exact List.perm_middle.symm
    · simp only [hp]
      rw [seat_ids_cons, hp, seat_ids_cons, hp]
      simp only [List.cons_append]
      exact List.Perm.cons p.player_id (ih pool)

theorem decrement_money (seats : List Seat) :
    seat_money (decrement_rounds seats) = seat_money seats := by
  induction seats with
  | nil => rfl
  | cons s rest ih =>
    simp only [decrement_rounds, List.map_cons] at ih ⊢
    rw [seat_money_cons, seat_money_cons, ih]
    rcases hp : s.player with _ | p <;> simp [hp, seat_cash]

theorem decrement_ids (seats : List Seat) :
    seat_ids (decrement_rounds seats) = seat_ids seats := by
  induction seats with
  | nil => rfl
  | cons s rest ih =>
    simp only [decrement_rounds, List.map_cons] at ih ⊢
    rw [seat_ids_cons, seat_ids_cons, ih]
    rcases hp : s.player with _ | p
    · simp [hp]
    · simp [hp]

/-!  Settlement case analysis shared by several claims. -/

theorem settle_seat_cases (p : Player) (bet : Nat) (pt dt : Nat) (profit : Int) :
    (pt > 21 ∨ (pt ≤ 21 ∧ dt ≤ 21 ∧ pt < dt) →
      settle_seat p bet pt dt profit =
        { player := { p with money_left := p.money_left - bet }, profit := profit + bet,
          money_delta := (bet : Int), outcome := ("loss", bet) }) ∧
    (pt ≤ 21 ∧ (dt > 21 ∨ pt > dt) →
      settle_seat p bet pt dt profit =
        { player := { p with money_left := p.money_left + bet }, profit := profit - bet,
          money_delta := -(bet : Int), outcome := ("win", bet) }) ∧
    (pt ≤ 21 ∧ dt ≤ 21 ∧ pt = dt →
      settle_seat p bet pt dt profit =
        { player := p, profit := profit, money_delta := 0, outcome := ("push", 0) }) := by
  refine ⟨fun h => ?_, fun h => ?_, fun h => ?_⟩ <;> unfold settle_seat
  · rcases h with h | ⟨h1, h2, h3⟩
    · rw [if_pos h]
    · rw [if_neg (by omega), if_neg (by omega), if_neg (by omega), if_pos (by omega)]
  · obtain ⟨h1, h2⟩ := h
    rcases h2 with h2 | h2
    · rw [if_neg (by omega), if_pos (by omega)]
    · rw [if_neg (by omega)]
      by_cases hd : dt > 21
      · rw [if_pos hd]
      · rw [if_neg hd, if_pos (by omega)]
  · obtain ⟨h1, h2, h3⟩ := h
    rw [if_neg (by omega), if_neg (by omega), if_neg (by omega), if_neg (by omega)]

/-- C1: settlement of one occupied seat in play_round, against the bet b
recorded at round start.  A bust, or a total strictly below a non-bust
dealer total, loses the bet: balance -= b, casino profit += b, outcome
"loss", result money_delta +b.  A non-bust hand against a bust dealer, or a
strictly higher total, wins: balance += b, profit -= b, outcome "win",
money_delta -b.  Equal totals with neither bust push: no change,
money_delta 0.  (settle_seat is the per-seat settlement block of play_round;
its money_delta field is the value recorded in the event's results entry
and its outcome field the pair recorded on the player's history.) -/
theorem c1_settlement (p : Player) (bet : Nat) (player_total dealer_total : Nat) (profit : Int) :
    (player_total > 21 ∨
        (player_total ≤ 21 ∧ dealer_total ≤ 21 ∧ player_total < dealer_total) →
      (settle_seat p bet player_total dealer_total profit).player.money_left
          = p.money_left - bet ∧
        (settle_seat p bet player_total dealer_total profit).profit = profit + bet ∧
        (settle_seat p bet player_total dealer_total profit).outcome.1 = "loss" ∧
        (settle_seat p bet player_total dealer_total profit).money_delta = (bet : Int)) ∧
    (player_total ≤ 21 ∧ (dealer_total > 21 ∨ player_total > dealer_total) →
      (settle_seat p bet player_total dealer_total profit).player.money_left
          = p.money_left + bet ∧
        (settle_seat p bet player_total dealer_total profit).profit = profit - bet ∧
        (settle_seat p bet player_total dealer_total profit).outcome.1 = "win" ∧
        (settle_seat p bet player_total dealer_total profit).money_delta = -(bet : Int)) ∧
    (player_total ≤ 21 ∧ dealer_total ≤ 21 ∧ player_total = dealer_total →
      (settle_seat p bet player_total dealer_total profit).player = p ∧
        (settle_seat p bet player_total dealer_total profit).profit = profit ∧
        (settle_seat p bet player_total dealer_total profit).money_delta = 0) := by
  obtain ⟨hl, hw, hp⟩ := settle_seat_cases p bet player_total dealer_total profit
  refine ⟨fun h => ?_, fun h => ?_, fun h => ?_⟩
  · rw [hl h]
    exact ⟨rfl, rfl, rfl, rfl⟩
  · rw [hw h]
    exact ⟨rfl, rfl, rfl, rfl⟩
  · rw [hp h]
    exact ⟨rfl, rfl, rfl⟩

/-- Witness for C1 at concrete inputs: a bust hand (22 vs 19, bet 50)
loses, a 20 against a dealer 22 (bet 30) wins, and a 20 against a dealer 20
(bet 40) pushes. -/
theorem c1_settlement_witness :
    ((settle_seat demo_player 50 22 19 0).player.money_left = demo_player.money_left - 50 ∧
      (settle_seat demo_player 50 22 19 0).profit = 0 + 50 ∧
      (settle_seat demo_player 50 22 19 0).outcome.1 = "loss" ∧
      (settle_seat demo_player 50 22 19 0).money_delta = (50 : Int)) ∧
    ((settle_seat demo_player 30 20 22 5).player.money_left = demo_player.money_left + 30 ∧
      (settle_seat demo_player 30 20 22 5).profit = 5 - 30 ∧
      (settle_seat demo_player 30 20 22 5).outcome.1 = "win" ∧
      (settle_seat demo_player 30 20 22 5).money_delta = -(30 : Int)) ∧
    ((settle_seat demo_player 40 20 20 5).player = demo_player ∧
      (settle_seat demo_player 40 20 20 5).profit = 5 ∧
      (settle_seat demo_player 40 20 20 5).money_delta = 0) :=
  ⟨(c1_settlement demo_player 50 22 19 0).1 (Or.inl (by omega)),
   (c1_settlement demo_player 30 20 22 5).2.1 ⟨by omega, Or.inl (by omega)⟩,
   (c1_settlement demo_player 40 20 20 5).2.2 ⟨by omega, by omega, rfl⟩⟩

/-- C2: a player total above 21 settles as a loss whatever the dealer total
is — the bust branch is the first test of the settlement block, so it
applies even when the dealer also busts: balance -= bet, profit += bet. -/
theorem c2_bust_priority (p : Player) (bet : Nat) (player_total dealer_total : Nat)
    (profit : Int) (h : player_total > 21) :
    (settle_seat p bet player_total dealer_total profit).outcome = ("loss", bet) ∧
    (settle_seat p bet player_total dealer_total profit).player.money_left
        = p.money_left - bet ∧
    (settle_seat p bet player_total dealer_total profit).profit = profit + bet ∧
    (settle_seat p bet player_total dealer_total profit).money_delta = (bet : Int) := by
  rw [(settle_seat_cases p bet player_total dealer_total profit).1 (Or.inl h)]
  exact ⟨rfl, rfl, rfl, rfl⟩

/-- Witness for C2: player total 25, dealer total 30 — both bust, the
player still loses the bet of 60. -/
theorem c2_bust_priority_witness :
    (settle_seat demo_player 60 25 30 7).outcome = ("loss", 60) ∧
    (settle_seat demo_player 60 25 30 7).player.money_left = demo_player.money_left - 60 ∧
    (settle_seat demo_player 60 25 30 7).profit = 7 + 60 ∧
    (settle_seat demo_player 60 25 30 7).money_delta = (60 : Int) :=
  c2_bust_priority demo_player 60 25 30 7 (by omega)

/-!  Projections of the end-of-round tail. -/

theorem round_tail_parts (c : Casino) (t : Table) (pool : List Player)
    (bets : List (Nat × Nat)) (hands : List (Nat × List Card)) (dh : List Card)
    (hp : Nat) (st : List Seat × Int × List SeatResult) :
    (round_tail c t pool bets hands dh hp st).casino.total_hands_played = hp ∧
    (round_tail c t pool bets hands dh hp st).casino.casino_profit = st.2.1 ∧
    (round_tail c t pool bets hands dh hp st).casino.finished_players
        = c.finished_players ++ (evict_seats (decrement_rounds st.1)).2 ∧
    (round_tail c t pool bets hands dh hp st).table.seats_list
        = (fill_seats (evict_seats (decrement_rounds st.1)).1 pool).1 ∧
    (round_tail c t pool bets hands dh hp st).pool
        = (fill_seats (evict_seats (decrement_rounds st.1)).1 pool).2 ∧
    (round_tail c t pool bets hands dh hp st).event.profit_delta = st.2.1 - c.casino_profit ∧
    (round_tail c t pool bets hands dh hp st).event.hands = hands ∧
    (round_tail c t pool bets hands dh hp st).event.dealer_hand = dh ∧
    (round_tail c t pool bets hands dh hp st).event.initial_bets = bets ∧
    (round_tail c t pool bets hands dh hp st).event.results = st.2.2 :=
  ⟨rfl, rfl, rfl, rfl, rfl, rfl, rfl, rfl, rfl, rfl⟩

/-- C3: a play_round call is zero-sum: over the players of the system (the
table's seats, the waiting pool and the finished pool — only the players
seated at round start are touched), the total money change equals the
negation of the casino profit change, which is also the event's
profit_delta. -/
theorem c3_zero_sum (casino : Casino) (table : Table) (pool : List Player)
    (perm : List Card → List Card) (rng : Nat → Nat) (r : RoundResult)
    (h : play_round casino table pool perm rng = some r) :
    (seat_money r.table.seats_list + pool_money r.pool
        + pool_money r.casino.finished_players)
      - (seat_money table.seats_list + pool_money pool
        + pool_money casino.finished_players)
      = -(r.casino.casino_profit - casino.casino_profit) ∧
    r.event.profit_delta = r.casino.casino_profit - casino.casino_profit := by
  obtain ⟨dp, dd, ph, dl, st, hdp, hdd, hph, hdl, hst, hr⟩ := play_round_destruct h
  subst hr
  obtain ⟨-, hprofit, hfin, hseats, hpool, hdelta, -, -, -, -⟩ :=
    round_tail_parts casino table pool (gen_bets table.seats_list rng 0) ph.1 dl.2 ph.2.2 st
  have hcons := settle_all_conserve ph.1 _ _ _ _ st hst
  have hdec := decrement_money st.1
  have hevict := evict_money (decrement_rounds st.1)
  have hfill := fill_money (evict_seats (decrement_rounds st.1)).1 pool
  rw [hseats, hpool, hfin, hprofit, hdelta, pool_money_append]
  constructor
  · omega
  · rfl

/-- Witness for C3: the demo round (one player, push at 20 against 20). -/
theorem c3_zero_sum_witness :
    (seat_money demo_round.table.seats_list + pool_money demo_round.pool
        + pool_money demo_round.casino.finished_players)
      - (seat_money demo_table.seats_list + pool_money []
        + pool_money demo_casino.finished_players)
      = -(demo_round.casino.casino_profit - demo_casino.casino_profit) ∧
    demo_round.event.profit_delta
        = demo_round.casino.casino_profit - demo_casino.casino_profit :=
  c3_zero_sum demo_casino demo_table [] id demo_rng demo_round
    (Option.some_get (show (play_round demo_casino demo_table [] id demo_rng).isSome
      by decide)).symm

/-- C4: hand growth in play_round.  Both action loops only append cards to
the hand, taking them off the shoe; a card is drawn exactly while the
running total (the raw sum of stored card values — an ace always counts 11,
there is no soft-total reduction) is strictly below 18, and the loop stops
as soon as the total reaches 18 or more (a total above 21 in particular);
and a successful play_round call raises the casino's lifetime hands-played
counter by exactly the number of occupied seats — the dealer's hand is not
counted. -/
theorem c4_hand_growth :
    (∀ (d : Deck) (hand : List Card) (d' : Deck) (h' : List Card),
        hit_loop d hand = some (d', h') →
        ∃ ext, h' = hand ++ ext ∧ d.deck = d'.deck ++ ext.reverse ∧
          18 ≤ hand_total h' ∧
          (∀ k, hand.length ≤ k → k < h'.length → hand_total (h'.take k) < 18)) ∧
    (∀ (d : Deck) (hand : List Card) (d' : Deck) (h' : List Card),
        dealer_loop d hand = some (d', h') →
        ∃ ext, h' = hand ++ ext ∧ d.deck = d'.deck ++ ext.reverse ∧
          18 ≤ hand_total h' ∧
          (∀ k, hand.length ≤ k → k < h'.length → hand_total (h'.take k) < 18)) ∧
    (∀ hand : List Card, hand_total hand = (hand.map Card.value).sum) ∧
    (∀ (casino : Casino) (table : Table) (pool : List Player)
        (perm : List Card → List Card) (rng : Nat → Nat) (r : RoundResult),
        play_round casino table pool perm rng = some r →
        r.casino.total_hands_played
          = casino.total_hands_played + occupied_count table.seats_list) := by
  refine ⟨fun d hand d' h' h => hit_loop_wrapper_sound h,
    fun d hand d' h' h => dealer_loop_wrapper_sound h,
    hand_total_eq_sum, ?_⟩
  intro casino table pool perm rng r h
  obtain ⟨dp, dd, ph, dl, st, hdp, hdd, hph, hdl, hst, hr⟩ := play_round_destruct h
  subst hr
  obtain ⟨hhp, -, -, -, -, -, -, -, -, -⟩ :=
    round_tail_parts casino table pool (gen_bets table.seats_list rng 0) ph.1 dl.2 ph.2.2 st
  rw [hhp]
  obtain ⟨hcount, -⟩ := play_hands_sound dp.1 dd.2 casino.total_hands_played ph hph
  obtain ⟨hfst, -, -⟩ := deal_players_sound table.seats_list _ dp hdp
  have hlen : dp.1.length = occupied_count table.seats_list := by
    have := congrArg List.length hfst
    simp only [List.length_map] at this
    rw [this, occupied_count, List.countP_eq_length_filter]
  omega

/-- Witness for C4: a stand pat hand of 20 against a singleton shoe, the
dealer loop on an 18, and the demo round raising the counter from 0 to 1. -/
theorem c4_hand_growth_witness :
    (∃ ext, [(⟨"K", "Spade", 10⟩ : Card), ⟨"Q", "Heart", 10⟩]
        = [(⟨"K", "Spade", 10⟩ : Card), ⟨"Q", "Heart", 10⟩] ++ ext ∧
      [(⟨"2", "Club", 2⟩ : Card)] = [(⟨"2", "Club", 2⟩ : Card)] ++ ext.reverse ∧
      18 ≤ hand_total [(⟨"K", "Spade", 10⟩ : Card), ⟨"Q", "Heart", 10⟩] ∧
      (∀ k, ([(⟨"K", "Spade", 10⟩ : Card), ⟨"Q", "Heart", 10⟩] : List Card).length ≤ k →
        k < ([(⟨"K", "Spade", 10⟩ : Card), ⟨"Q", "Heart", 10⟩] : List Card).length →
        hand_total (([(⟨"K", "Spade", 10⟩ : Card), ⟨"Q", "Heart", 10⟩] : List Card).take k) < 18)) ∧
    demo_round.casino.total_hands_played
      = demo_casino.total_hands_played + occupied_count demo_table.seats_list := by
  constructor
  · exact c4_hand_growth.1 { deck := [⟨"2", "Club", 2⟩] }
      [⟨"K", "Spade", 10⟩, ⟨"Q", "Heart", 10⟩] { deck := [⟨"2", "Club", 2⟩] }
      [⟨"K", "Spade", 10⟩, ⟨"Q", "Heart", 10⟩] (by decide)
  · exact c4_hand_growth.2.2.2 demo_casino demo_table [] id demo_rng demo_round
      (Option.some_get (show (play_round demo_casino demo_table [] id demo_rng).isSome
        by decide)).symm

/-- C5: turnover at the end of play_round.  After every seated player's
remaining-rounds counter is decremented (decrement_rounds is applied to the
settled seats st.1 first), exactly the seated players with balance < 100 or
remaining rounds <= 0 are appended to the finished pool and their seats are
vacated (in particular a negative balance evicts a player who still has
rounds left); then the empty seats are filled in seat order by popping
players from the front of the waiting pool until seats or pool run out:
occupied seats are unchanged, the players installed at the previously empty
positions are exactly pool.take m in order (m = min(number of empty seats,
pool size)), and the pool loses exactly its first m players. -/
theorem c5_turnover (c : Casino) (t : Table) (pool : List Player)
    (bets : List (Nat × Nat)) (hands : List (Nat × List Card)) (dh : List Card)
    (hp : Nat) (st : List Seat × Int × List SeatResult) :
    (∀ p : Player, evict_cond p = true ↔ (p.money_left < 100 ∨ p.rounds_left ≤ 0)) ∧
    (round_tail c t pool bets hands dh hp st).casino.finished_players
        = c.finished_players
          ++ ((decrement_rounds st.1).filterMap Seat.player).filter evict_cond ∧
    (evict_seats (decrement_rounds st.1)).1
        = (decrement_rounds st.1).map (fun s =>
            match s.player with
            | some p => if evict_cond p then { s with player := none } else s
            | none => s) ∧
    (round_tail c t pool bets hands dh hp st).pool
        = pool.drop (min (empty_count (evict_seats (decrement_rounds st.1)).1) pool.length) ∧
    filled_players (evict_seats (decrement_rounds st.1)).1
        (round_tail c t pool bets hands dh hp st).table.seats_list
      = (pool.take (min (empty_count (evict_seats (decrement_rounds st.1)).1)
            pool.length)).map some
        ++ List.replicate (empty_count (evict_seats (decrement_rounds st.1)).1
            - min (empty_count (evict_seats (decrement_rounds st.1)).1) pool.length) none ∧
    List.Forall₂ (fun s s2 => s2.seat_index = s.seat_index ∧ ∀ p, s.player = some p → s2 = s)
      (evict_seats (decrement_rounds st.1)).1
      (round_tail c t pool bets hands dh hp st).table.seats_list := by
  obtain ⟨-, -, hfin, hseats, hpool, -, -, -, -, -⟩ :=
    round_tail_parts c t pool bets hands dh hp st
  refine ⟨fun p => by simp [evict_cond], ?_, (evict_seats_eq _).1, ?_, ?_, ?_⟩
  · rw [hfin, (evict_seats_eq (decrement_rounds st.1)).2]
  · rw [hpool, fill_seats_pool]
  · rw [hseats, fill_seats_filled]
  · rw [hseats]
    exact fill_seats_keep _ pool

/-- Witness for C5: the settled seat holds a player with balance -10 and 3
rounds left; after the decrement (2 rounds left) the negative balance
evicts the player even though rounds remain, and the waiting player is
seated in the vacated seat. -/
theorem c5_turnover_witness :
    (round_tail demo_casino demo_table [waiting_player] [] [] [] 0
        ([{ seat_index := 0, player := some broke_player }], 60, [])).casino.finished_players
      = demo_casino.finished_players
        ++ ((decrement_rounds [{ seat_index := 0, player := some broke_player }]).filterMap
              Seat.player).filter evict_cond ∧
    (round_tail demo_casino demo_table [waiting_player] [] [] [] 0
        ([{ seat_index := 0, player := some broke_player }], 60, [])).pool
      = [waiting_player].drop (min (empty_count
          (evict_seats (decrement_rounds
            [{ seat_index := 0, player := some broke_player }])).1) [waiting_player].length) :=
  ⟨(c5_turnover demo_casino demo_table [waiting_player] [] [] [] 0
      ([{ seat_index := 0, player := some broke_player }], 60, [])).2.1,
   (c5_turnover demo_casino demo_table [waiting_player] [] [] [] 0
      ([{ seat_index := 0, player := some broke_player }], 60, [])).2.2.2.1⟩

/-- C6 counterexample: in the demo round the seat's recorded bet is 10 and
the hand is a push (player 20, dealer 20), but the pair appended to the
player's history is ("push", 0) and not ("push", bet) = ("push", 10): the
settlement block stores the amount 0, not the seat's initial bet, on a
push. -/
theorem c6_counterexample :
    demo_round.event.initial_bets = [(0, 10)] ∧
    demo_round.event.results
      = [{ seat_index := 0, player_name := "Ann", money_delta := 0 }] ∧
    demo_round.table.seats_list.map (fun s => s.player.map Player.history)
      = [some [("push", 0)]] ∧
    (("push", 0) : String × Nat) ≠ ("push", 10) := by
  refine ⟨by decide, by decide, by decide, by decide⟩

theorem push_history_history (p : Player) (outcome : String × Nat) :
    (push_history p outcome).history =
      if (p.history ++ [outcome]).length > 5 then
        (p.history ++ [outcome]).drop ((p.history ++ [outcome]).length - 5)
      else p.history ++ [outcome] := rfl

/-- Last-5 truncation of the history update. -/
theorem push_history_spec (p : Player) (outcome : String × Nat) :
    (push_history p outcome).history
        = (p.history ++ [outcome]).drop
            (p.history.length + 1 - min (p.history.length + 1) 5) ∧
    (push_history p outcome).history.length = min (p.history.length + 1) 5 ∧
    (push_history p outcome).history.getLast? = some outcome := by
  rw [push_history_history]
  have hlen : (p.history ++ [outcome]).length = p.history.length + 1 := by simp
  by_cases hgt : (p.history ++ [outcome]).length > 5
  · rw [if_pos hgt]
    have hmin : min (p.history.length + 1) 5 = 5 := by omega
    have hk : p.history.length + 1 - 5 ≤ p.history.length := by omega
    refine ⟨by rw [hmin, hlen], ?_, ?_⟩
    · rw [List.length_drop]
      omega
    · rw [hlen, List.drop_append_of_le_length hk, List.getLast?_concat]
  · rw [if_neg hgt]
    have hmin : min (p.history.length + 1) 5 = p.history.length + 1 := by omega
    refine ⟨by rw [hmin]; simp, by omega, List.getLast?_concat _⟩

/-- C6 (amended): settlement appends exactly one pair to the seated
player's history — (outcome, bet) when the outcome is a win or a loss, but
("push", 0) on a push, where play_round stores the fixed amount 0 rather
than the seat's initial bet; the history is then truncated to its most
recent 5 entries with the oldest dropped first, so afterwards it holds
min(previous length + 1, 5) ≤ 5 entries in chronological order with the
appended pair last. -/
theorem c6_history (p : Player) (outcome : String × Nat) (bet pt dt : Nat) (profit : Int) :
    ((push_history p outcome).history
        = (p.history ++ [outcome]).drop
            (p.history.length + 1 - min (p.history.length + 1) 5)) ∧
    (push_history p outcome).history.length = min (p.history.length + 1) 5 ∧
    (push_history p outcome).history.length ≤ 5 ∧
    (push_history p outcome).history.getLast? = some outcome ∧
    (pt > 21 ∨ (pt ≤ 21 ∧ dt ≤ 21 ∧ pt < dt) →
      (settle_seat p bet pt dt profit).outcome = ("loss", bet)) ∧
    (pt ≤ 21 ∧ (dt > 21 ∨ pt > dt) →
      (settle_seat p bet pt dt profit).outcome = ("win", bet)) ∧
    (pt ≤ 21 ∧ dt ≤ 21 ∧ pt = dt →
      (settle_seat p bet pt dt profit).outcome = ("push", 0)) := by
  obtain ⟨h1, h2, h3⟩ := push_history_spec p outcome
  obtain ⟨hl, hw, hpu⟩ := settle_seat_cases p bet pt dt profit
  refine ⟨h1, h2, by omega, h3, fun h => by rw [hl h], fun h => by rw [hw h],
    fun h => by rw [hpu h]⟩

/-- Witness for C6 (amended): a push with bet 40 stores ("push", 0); the
pair appended for broke_player is the last history entry. -/
theorem c6_history_witness :
    (push_history broke_player ("push", 0)).history.getLast? = some ("push", 0) ∧
    (settle_seat demo_player 40 20 20 5).outcome = ("push", 0) ∧
    (settle_seat demo_player 40 22 20 5).outcome = ("loss", 40) :=
  ⟨(c6_history broke_player ("push", 0) 40 20 20 5).2.2.2.1,
   (c6_history demo_player ("push", 0) 40 20 20 5).2.2.2.2.2.2 ⟨by omega, by omega, rfl⟩,
   (c6_history demo_player ("push", 0) 40 22 20 5).2.2.2.2.1 (Or.inl (by omega))⟩

/-!  Shoe composition. -/

theorem deck_init_zero : (Deck.init 0).deck = [] := rfl

theorem deck_init_succ (n : Nat) :
    (Deck.init (n + 1)).deck = deck_block ++ (Deck.init n).deck := by
  simp [Deck.init, List.replicate_succ]

theorem deck_init_length (n : Nat) : (Deck.init n).deck.length = 52 * n := by
  induction n with
  | zero => rfl
  | succ n ih =>
    rw [deck_init_succ, List.length_append, ih]
    have hb : deck_block.length = 52 := by decide
    omega

theorem deck_init_count (n : Nat) (c : Card) :
    (Deck.init n).deck.count c = n * deck_block.count c := by
  induction n with
  | zero => simp [deck_init_zero]
  | succ n ih =>
    rw [deck_init_succ, List.count_append, ih]
    ring

theorem deck_init_mem {n : Nat} {c : Card} (h : c ∈ (Deck.init n).deck) : c ∈ deck_block := by
  induction n with
  | zero => rw [deck_init_zero] at h; cases h
  | succ n ih =>
    rw [deck_init_succ, List.mem_append] at h
    rcases h with h | h
    · exact h
    · exact ih h

theorem deck_block_values : ∀ c ∈ deck_block, 2 ≤ c.value ∧ c.value ≤ 11 := by decide

theorem deck_init_values {n : Nat} : ∀ c ∈ (Deck.init n).deck, 2 ≤ c.value :=
  fun c hc => (deck_block_values c (deck_init_mem hc)).1

theorem draw_n_sound :
    ∀ (k : Nat) (d : Deck) (r : List Card × Deck),
      d.draw_n k = some r → r.1.length = k ∧ r.2.deck.length + k = d.deck.length := by
  intro k
  induction k with
  | zero =>
    intro d r h
    simp only [Deck.draw_n] at h
    obtain rfl := Option.some.inj h
    exact ⟨rfl, rfl⟩
  | succ k ih =>
    intro d r h
    unfold Deck.draw_n at h
    rcases hdc : d.draw_card with _ | cd <;> simp only [hdc] at h
    · cases h
    · rcases hrest : cd.2.draw_n k with _ | r2 <;> simp only [hrest] at h
      · cases h
      · obtain rfl := Option.some.inj h
        obtain ⟨h1, h2⟩ := ih cd.2 r2 hrest
        have hlen : d.deck.length = cd.2.deck.length + 1 :=
          draw_card_length (show d.draw_card = some (cd.1, cd.2) from hdc)
        constructor
        · show r2.1.length + 1 = k + 1
          omega
        · show r2.2.deck.length + (k + 1) = d.deck.length
          omega

/-- C7: a shoe built with num_decks = n holds exactly 52 n cards — each
(rank, suit) combination of the 13 ranks and 4 suits exactly n times, aces
valued 11 and face cards 10; each successful draw removes and returns
exactly one card; with one deck, 52 draws succeed and leave the shoe empty,
and the 53rd draw fails (an empty pop — the ShoeExhausted condition) rather
than returning a card. -/
theorem c7_shoe :
    (∀ n : Nat, (Deck.init n).deck.length = 52 * n) ∧
    (∀ n : Nat, ∀ rv ∈ CARD_LIST, ∀ s ∈ SUITS,
      (Deck.init n).deck.count { rank := rv.1, suit := s, value := rv.2 } = n) ∧
    (∀ n : Nat, ∀ c ∈ (Deck.init n).deck,
      (c.rank = "A" → c.value = 11) ∧
      (c.rank = "J" ∨ c.rank = "Q" ∨ c.rank = "K" → c.value = 10)) ∧
    (∀ (k : Nat) (d : Deck) (r : List Card × Deck),
      d.draw_n k = some r → r.1.length = k ∧ r.2.deck.length + k = d.deck.length) ∧
    (∃ r, (Deck.init 1).draw_n 52 = some r ∧ r.2.deck = []) ∧
    (Deck.init 1).draw_n 53 = none := by
  refine ⟨deck_init_length, ?_, ?_, draw_n_sound, ?_, by decide⟩
  · intro n rv hrv s hs
    rw [deck_init_count]
    have hone : ∀ rv2 ∈ CARD_LIST, ∀ s2 ∈ SUITS,
        deck_block.count { rank := rv2.1, suit := s2, value := rv2.2 } = 1 := by decide
    rw [hone rv hrv s hs]
    ring
  · intro n c hc
    have hmem := deck_init_mem hc
    have hfacts : ∀ c2 ∈ deck_block,
        (c2.rank = "A" → c2.value = 11) ∧
        (c2.rank = "J" ∨ c2.rank = "Q" ∨ c2.rank = "K" → c2.value = 10) := by decide
    exact hfacts c hmem
  · exact ⟨((Deck.init 1).draw_n 52).get (by decide),
      (Option.some_get (show ((Deck.init 1).draw_n 52).isSome by decide)).symm, by decide⟩

/-- Witness for C7: the one-deck shoe has 52 cards, contains the ace of
hearts exactly once, and a concrete two-card draw removes two cards. -/
theorem c7_shoe_witness :
    (Deck.init 1).deck.length = 52 * 1 ∧
    (Deck.init 1).deck.count { rank := "A", suit := "Heart", value := 11 } = 1 ∧
    (((Deck.init 1).draw_n 2).get (by decide)).1.length = 2 ∧
    (((Deck.init 1).draw_n 2).get (by decide)).2.deck.length + 2 = (Deck.init 1).deck.length :=
  ⟨c7_shoe.1 1,
   c7_shoe.2.1 1 ("A", 11) (by decide) "Heart" (by decide),
   (c7_shoe.2.2.2.1 2 (Deck.init 1) (((Deck.init 1).draw_n 2).get (by decide))
      (Option.some_get (show ((Deck.init 1).draw_n 2).isSome by decide)).symm).1,
   (c7_shoe.2.2.2.1 2 (Deck.init 1) (((Deck.init 1).draw_n 2).get (by decide))
      (Option.some_get (show ((Deck.init 1).draw_n 2).isSome by decide)).symm).2⟩

/-!  Revival of finished players. -/

theorem randint_mem (lo hi r : Nat) (h : lo ≤ hi) :
    lo ≤ randint lo hi r ∧ randint lo hi r ≤ hi := by
  unfold randint
  have hm : r % (hi + 1 - lo) < hi + 1 - lo := Nat.mod_lt r (by omega)
  omega

theorem foldl_erase_append :
    ∀ (l pool : List Player),
      l.foldl (fun acc p => (acc.1.erase p, acc.2 ++ [p])) (l, pool) = ([], pool ++ l) := by
  intro l
  induction l with
  | nil => intro pool; simp
  | cons p t ih =>
    intro pool
    show List.foldl _ ((p :: t).erase p, pool ++ [p]) t = ([], pool ++ p :: t)
    rw [List.erase_cons_head]
    rw [ih (pool ++ [p])]
    simp

theorem revive_players_spec :
    ∀ (l : List Player) (rng : Nat → Nat) (k : Nat),
      List.Forall₂ (fun p p' =>
        p.money_left + 500 ≤ p'.money_left ∧ p'.money_left ≤ p.money_left + 1000 ∧
        p.rounds_left + 3 ≤ p'.rounds_left ∧ p'.rounds_left ≤ p.rounds_left + 10 ∧
        p'.player_id = p.player_id ∧ p'.first_name = p.first_name ∧ p'.history = p.history)
      l (revive_players l rng k) := by
  intro l
  induction l with
  | nil => intro rng k; simp [revive_players]
  | cons p t ih =>
    intro rng k
    unfold revive_players
    refine List.Forall₂.cons ?_ (ih rng (k + 1))
    obtain ⟨h1a, h1b⟩ := randint_mem 500 1000 (rng (2 * k)) (by omega)
    obtain ⟨h2a, h2b⟩ := randint_mem 3 10 (rng (2 * k + 1)) (by omega)
    refine ⟨?_, ?_, ?_, ?_, rfl, rfl, rfl⟩ <;> simp only [] <;> omega

/-- C8: at a tick boundary where the simulated clock (10 seconds per tick)
satisfies sim_time % 1800 == 0, the revival sweep empties the finished pool
and appends exactly its players, in order, to the tail of the waiting pool
(the waiting players themselves are untouched — they form the unchanged
prefix), each revived player having its balance increased by a value in
[500, 1000] and its remaining rounds increased by a value in [3, 10] (both
strictly increased), with identity, name and history unchanged. -/
theorem c8_revival (sim_time : Nat) (finished pool : List Player) (rng : Nat → Nat)
    (h : sim_time % 1800 = 0) :
    (revival_step sim_time finished pool rng).1 = [] ∧
    (revival_step sim_time finished pool rng).2 = pool ++ revive_players finished rng 0 ∧
    List.Forall₂ (fun p p' =>
        p.money_left + 500 ≤ p'.money_left ∧ p'.money_left ≤ p.money_left + 1000 ∧
        p.rounds_left + 3 ≤ p'.rounds_left ∧ p'.rounds_left ≤ p.rounds_left + 10 ∧
        p'.player_id = p.player_id ∧ p'.first_name = p.first_name ∧ p'.history = p.history)
      finished (revive_players finished rng 0) := by
  unfold revival_step
  rw [if_pos h]
  have hfold := foldl_erase_append (revive_players finished rng 0) pool
  refine ⟨?_, ?_, revive_players_spec finished rng 0⟩
  · show (List.foldl _ (revive_players finished rng 0, pool)
      (revive_players finished rng 0)).1 = []
    rw [hfold]
  · show (List.foldl _ (revive_players finished rng 0, pool)
      (revive_players finished rng 0)).2 = pool ++ revive_players finished rng 0
    rw [hfold]

/-- Witness for C8: at sim_time 1800 the broke player is revived from the
finished pool onto the tail of the pool holding the waiting player. -/
theorem c8_revival_witness :
    (revival_step 1800 [broke_player] [waiting_player] demo_rng).1 = [] ∧
    (revival_step 1800 [broke_player] [waiting_player] demo_rng).2
      = [waiting_player] ++ revive_players [broke_player] demo_rng 0 ∧
    List.Forall₂ (fun p p' =>
        p.money_left + 500 ≤ p'.money_left ∧ p'.money_left ≤ p.money_left + 1000 ∧
        p.rounds_left + 3 ≤ p'.rounds_left ∧ p'.rounds_left ≤ p.rounds_left + 10 ∧
        p'.player_id = p.player_id ∧ p'.first_name = p.first_name ∧ p'.history = p.history)
      [broke_player] (revive_players [broke_player] demo_rng 0) :=
  c8_revival 1800 [broke_player] [waiting_player] demo_rng (by decide)

/-!  Ownership accounting. -/

theorem pool_ids_append (a b : List Player) :
    pool_ids (a ++ b) = pool_ids a ++ pool_ids b := by
  simp [pool_ids]

/-- C9: a play_round call moves players between seats, the waiting pool and
the finished pool without creating or losing any: the combined list of
player ids over the three owners after the call is a permutation of the one
before, and hence if every player was held by exactly one owner before the
call (no duplicated id), the same holds after. -/
theorem c9_ownership (casino : Casino) (table : Table) (pool : List Player)
    (perm : List Card → List Card) (rng : Nat → Nat) (r : RoundResult)
    (h : play_round casino table pool perm rng = some r) :
    (seat_ids r.table.seats_list ++ pool_ids r.pool
        ++ pool_ids r.casino.finished_players).Perm
      (seat_ids table.seats_list ++ pool_ids pool
        ++ pool_ids casino.finished_players) ∧
    ((seat_ids table.seats_list ++ pool_ids pool
        ++ pool_ids casino.finished_players).Nodup →
      (seat_ids r.table.seats_list ++ pool_ids r.pool
        ++ pool_ids r.casino.finished_players).Nodup) := by
  obtain ⟨dp, dd, ph, dl, st, hdp, hdd, hph, hdl, hst, hr⟩ := play_round_destruct h
  subst hr
  obtain ⟨-, -, hfin, hseats, hpool, -, -, -, -, -⟩ :=
    round_tail_parts casino table pool (gen_bets table.seats_list rng 0) ph.1 dl.2 ph.2.2 st
  have hsettle := settle_all_ids ph.1 _ _ _ _ st hst
  have hdec := decrement_ids st.1
  have hev := evict_ids (decrement_rounds st.1)
  have hfi := fill_ids (evict_seats (decrement_rounds st.1)).1 pool
  have hS0 : seat_ids (decrement_rounds st.1) = seat_ids table.seats_list := by
    rw [hdec, hsettle]
  have main : (seat_ids (round_tail casino table pool (gen_bets table.seats_list rng 0)
        ph.1 dl.2 ph.2.2 st).table.seats_list
      ++ pool_ids (round_tail casino table pool (gen_bets table.seats_list rng 0)
        ph.1 dl.2 ph.2.2 st).pool
      ++ pool_ids (round_tail casino table pool (gen_bets table.seats_list rng 0)
        ph.1 dl.2 ph.2.2 st).casino.finished_players).Perm
      (seat_ids table.seats_list ++ pool_ids pool ++ pool_ids casino.finished_players) := by
    rw [hseats, hpool, hfin, pool_ids_append]
    refine List.perm_iff_count.mpr fun a => ?_
    have h1 := hfi.count_eq a
    have h2 := hev.count_eq a
    rw [hS0] at h2
    simp only [List.count_append] at h1 h2 ⊢
    omega
  exact ⟨main, fun hnd => (main.nodup_iff).mpr hnd⟩

/-- Witness for C9: the demo round preserves the single player id 1. -/
theorem c9_ownership_witness :
    (seat_ids demo_round.table.seats_list ++ pool_ids demo_round.pool
        ++ pool_ids demo_round.casino.finished_players).Perm
      (seat_ids demo_table.seats_list ++ pool_ids []
        ++ pool_ids demo_casino.finished_players) ∧
    ((seat_ids demo_table.seats_list ++ pool_ids []
        ++ pool_ids demo_casino.finished_players).Nodup →
      (seat_ids demo_round.table.seats_list ++ pool_ids demo_round.pool
        ++ pool_ids demo_round.casino.finished_players).Nodup) :=
  c9_ownership demo_casino demo_table [] id demo_rng demo_round
    (Option.some_get (show (play_round demo_casino demo_table [] id demo_rng).isSome
      by decide)).symm

/-!  Safety of the default 20-deck shoe. -/

theorem dealer_loop_hand_bound {d : Deck} {hand : List Card} {d' : Deck} {h' : List Card}
    (hv : ∀ c ∈ d.deck, 2 ≤ c.value)
    (hlen : hand.length = 2) (ht4 : 4 ≤ hand_total hand)
    (h : dealer_loop d hand = some (d', h')) :
    h'.length ≤ 9 ∧ d.deck.length ≤ d'.deck.length + 7 := by
  obtain ⟨ext, he1, he2, _, he4⟩ := dealer_loop_wrapper_sound h
  have hconsumed : d.deck.length = d'.deck.length + ext.length := by
    rw [he2]; simp
  have hh : h'.length = hand.length + ext.length := by
    rw [he1]; simp
  by_cases ht : hand_total hand < 18
  · have := dealer_loop_fuel_bound d.deck.length d hand d' h' hv h ht
    omega
  · have : h'.length ≤ hand.length := by
      by_contra hgt
      push_neg at hgt
      have := he4 hand.length (le_refl _) hgt
      rw [he1, List.take_left] at this
      omega
    omega

theorem gen_bets_lookup :
    ∀ (seats : List Seat) (rng : Nat → Nat) (k : Nat) (s : Seat),
      s ∈ seats → s.player.isSome = true →
      ∃ b, lookup_bet (gen_bets seats rng k) s.seat_index = some b := by
  intro seats
  induction seats with
  | nil => intro rng k s hs; cases hs
  | cons head rest ih =>
    intro rng k s hs hocc
    rcases hp : head.player with _ | p
    · unfold gen_bets
      simp only [hp]
      rcases List.mem_cons.mp hs with rfl | hs2
      · rw [hp] at hocc
        cases hocc
      · exact ih rng k s hs2 hocc
    · unfold gen_bets
      simp only [hp]
      by_cases heq : head.seat_index = s.seat_index
      · exact ⟨randint 10 100 (rng k), by unfold lookup_bet; rw [if_pos heq]⟩
      · rcases List.mem_cons.mp hs with rfl | hs2
        · exact absurd rfl heq
        · obtain ⟨b, hb⟩ := ih rng (k + 1) s hs2 hocc
          exact ⟨b, by unfold lookup_bet; rw [if_neg heq]; exact hb⟩

theorem wf_getElem {t : Table} (hwf : t.wf) :
    ∀ s ∈ t.seats_list, t.seats_list[s.seat_index]? = some s := by
  intro s hs
  obtain ⟨⟨j, hj⟩, rfl⟩ := List.mem_iff_get.mp hs
  have hcongr := congrArg (fun l => l[j]?) hwf
  simp only [List.getElem?_map, List.getElem?_range hj,
    List.getElem?_eq_getElem hj] at hcongr
  have hidx : t.seats_list[j].seat_index = j := by
    simpa using hcongr
  show t.seats_list[t.seats_list[j].seat_index]? = some t.seats_list[j]
  rw [hidx]
  exact List.getElem?_eq_getElem hj

theorem sum_hand_lengths_le :
    ∀ (l : List (Nat × List Card)), (∀ x ∈ l, x.2.length ≤ 9) →
      (l.map (fun x => x.2.length)).sum ≤ 9 * l.length := by
  intro l
  induction l with
  | nil => intro h; simp
  | cons x t ih =>
    intro h
    simp only [List.map_cons, List.sum_cons, List.length_cons]
    have h1 := h x (by simp)
    have h2 := ih (fun y hy => h y (by simp [hy]))
    omega

/-- C10: with the fresh default 20-deck shoe of 1040 cards (every card
worth at least 2) play_round cannot exhaust the shoe on a well-formed table
with at most 114 occupied seats: the call succeeds — the empty-shoe draw
failure is unreachable — every player hand and the dealer hand ends with at
most 9 cards (a card is drawn only while the total is at most 17 and every
card adds at least 2), and the cards consumed by the dealt hands are at
most 9 * (occupied seats + 1) ≤ 1040. -/
theorem c10_no_exhaustion (casino : Casino) (table : Table) (pool : List Player)
    (perm : List Card → List Card) (rng : Nat → Nat)
    (hperm : (perm (Deck.init 20).deck).Perm (Deck.init 20).deck)
    (hwf : table.wf)
    (hocc : occupied_count table.seats_list ≤ 114) :
    ∃ r, play_round casino table pool perm rng = some r ∧
      (∀ ihand ∈ r.event.hands, ihand.2.length ≤ 9) ∧
      r.event.dealer_hand.length ≤ 9 ∧
      (r.event.hands.map (fun ihand => ihand.2.length)).sum + r.event.dealer_hand.length
        ≤ 9 * (occupied_count table.seats_list + 1) := by
  set deck1 := (Deck.init 20).shuffle_deck perm with hdeck1
  have hlen1 : deck1.deck.length = 1040 := by
    rw [hdeck1]
    show (perm (Deck.init 20).deck).length = 1040
    rw [hperm.length_eq, deck_init_length]
  have hval1 : ∀ c ∈ deck1.deck, 2 ≤ c.value := by
    intro c hc
    exact deck_init_values c (hperm.mem_iff.mp hc)
  obtain ⟨dp, hdp⟩ := deal_players_isSome table.seats_list deck1 (by omega)
  obtain ⟨hfst, hlen2, hvals⟩ := deal_players_sound table.seats_list deck1 dp hdp
  obtain ⟨hhands2, hval2⟩ := hvals hval1
  obtain ⟨dd, hdd⟩ := deal_dealer_isSome (d := dp.2) (by omega)
  obtain ⟨hlen3, hdds⟩ := deal_dealer_sound hdd
  obtain ⟨hdl2, hdt4, hval3⟩ := hdds hval2
  have hcnt : dp.1.length = occupied_count table.seats_list := by
    have hfl := congrArg List.length hfst
    simp only [List.length_map] at hfl
    rw [hfl, occupied_count, List.countP_eq_length_filter]
  obtain ⟨ph, hph, hval4, hlen4, hh9⟩ := play_hands_isSome dp.1 dd.2
    casino.total_hands_played hval3 hhands2 (by omega)
  obtain ⟨dl, hdl⟩ := dealer_loop_fuel_isSome ph.2.1.deck.length ph.2.1 dd.1 hval4
    (by omega) (le_refl _)
  have hdl' : dealer_loop ph.2.1 dd.1 = some dl := hdl
  obtain ⟨hdl9, -⟩ := dealer_loop_hand_bound hval4 hdl2 hdt4
    (show dealer_loop ph.2.1 dd.1 = some (dl.1, dl.2) from hdl')
  obtain ⟨hphc, hphfst⟩ := play_hands_sound dp.1 dd.2 casino.total_hands_played ph hph
  have hsettle_pre : ∀ ihand ∈ ph.1,
      (∃ seat p, table.seats_list[ihand.1]? = some seat ∧ seat.player = some p) ∧
      ∃ b, lookup_bet (gen_bets table.seats_list rng 0) ihand.1 = some b := by
    intro ihand hih
    have hmem : ihand.1 ∈ ph.1.map Prod.fst := List.mem_map_of_mem _ hih
    rw [hphfst, hfst] at hmem
    obtain ⟨s, hsf, hsi⟩ := List.mem_map.mp hmem
    have hsmem : s ∈ table.seats_list := List.mem_of_mem_filter hsf
    have hsocc : s.player.isSome = true := by
      have := List.of_mem_filter hsf
      simpa using this
    rcases hsp : s.player with _ | p
    · rw [hsp] at hsocc
      cases hsocc
    · constructor
      · refine ⟨s, p, ?_, hsp⟩
        rw [← hsi]
        exact wf_getElem hwf s hsmem
      · rw [← hsi]
        exact gen_bets_lookup table.seats_list rng 0 s hsmem hsocc
  obtain ⟨st, hst⟩ := settle_all_isSome ph.1 (gen_bets table.seats_list rng 0)
    (hand_total dl.2) table.seats_list casino.casino_profit hsettle_pre
  have hplen : ph.1.length = occupied_count table.seats_list := by
    have hfl := congrArg List.length hphfst
    simp only [List.length_map] at hfl
    omega
  obtain ⟨-, -, -, -, -, -, hevhands, hevdealer, -, -⟩ :=
    round_tail_parts casino table pool (gen_bets table.seats_list rng 0) ph.1 dl.2 ph.2.2 st
  refine ⟨round_tail casino table pool (gen_bets table.seats_list rng 0) ph.1 dl.2 ph.2.2 st,
    ?_, ?_, ?_, ?_⟩
  · unfold play_round
    rw [← hdeck1]
    simp only [hdp, hdd, hph, hdl', hst, Option.some_bind]
  · rw [hevhands]
    exact hh9
  · rw [hevdealer]
    exact hdl9
  · rw [hevhands, hevdealer]
    have hsum := sum_hand_lengths_le ph.1 hh9
    omega

/-- Witness for C10: the demo table (one occupied seat, identity shuffle)
plays a full round without exhausting the shoe. -/
theorem c10_no_exhaustion_witness :
    ∃ r, play_round demo_casino demo_table [] id demo_rng = some r ∧
      (∀ ihand ∈ r.event.hands, ihand.2.length ≤ 9) ∧
      r.event.dealer_hand.length ≤ 9 ∧
      (r.event.hands.map (fun ihand => ihand.2.length)).sum + r.event.dealer_hand.length
        ≤ 9 * (occupied_count demo_table.seats_list + 1) :=
  c10_no_exhaustion demo_casino demo_table [] id demo_rng (List.Perm.refl _)
    (by unfold Table.wf; decide) (by decide)
